import Mathlib

set_option linter.unusedVariables false

/-! Shallow embedding of the FUSED in-memory append-only filesystem
(`fused_ops.c`, final revision): the inode table, path resolution,
directory-entry management, per-inode backing content, and the FUSE
operation callbacks `open`, `read`, `write`, `create`, `mkdir`,
`rmdir`, `rename`.

Modelling conventions:
- C strings are `List Char`; the fixed-size name/path buffers are
  modelled as unbounded strings (no claim depends on truncation).
- The inode array `g_state->inodes[MAX_INODES]` together with
  `n_inodes` is modelled as a list of length `n_inodes`; slots at or
  beyond `n_inodes` are never read by the C code (every scan is bounded
  by `n_inodes`), so they are not represented.  `memset(inode, 0, ...)`
  becomes `List.set` with `zeroInode`.
- The backing files (`/tmp/fused_backing/inode_<ino>`, one per inode,
  path determined by the inode number) are modelled as an association
  list from inode number to byte list; `fopen(..., "wb")` sets the
  entry to `[]`, `fopen(..., "ab")` appends (creating on demand, as the
  C library does), `unlink` erases the entry, `fopen(..., "rb")` on a
  missing file fails with `EIO` as in `fused_read`.  Bytes are `Nat`.
- `time(NULL)` and the caller identity (`getuid`/`fuse_get_context`)
  are passed in as explicit arguments.
- The host I/O never short-writes in the model, so the partial-write
  `EIO` branch of `fused_write` and the `fopen` failure branch of
  `fused_create` are not taken; both are failure modes of the external
  storage, not of the engine logic under verification. -/

namespace Fused

/-- capacity of the fixed-size inode table (`MAX_INODES`). -/
def MAX_INODES : Nat := 4096

/-- capacity of a directory's child arrays (`MAX_CHILDREN`). -/
def MAX_CHILDREN : Nat := 1024

/-- file-type mask of `mode_t` (octal 0170000). -/
def S_IFMT : Nat := 61440

/-- directory file type (octal 0040000). -/
def S_IFDIR : Nat := 16384

/-- regular-file file type (octal 0100000). -/
def S_IFREG : Nat := 32768

/-- the `S_ISDIR` macro: file-type bits equal `S_IFDIR`. -/
def S_ISDIR (m : Nat) : Bool := m &&& S_IFMT == S_IFDIR

/-- `O_ACCMODE` open-flags mask. -/
def O_ACCMODE : Nat := 3

/-- `O_WRONLY` access mode. -/
def O_WRONLY : Nat := 1

/-- `O_RDWR` access mode. -/
def O_RDWR : Nat := 2

/-- `O_APPEND` flag (octal 02000 on Linux). -/
def O_APPEND : Nat := 1024

/-- a C string. -/
abbrev CStr := List Char

/-- one directory entry: `(child_names[i], child_inodes[i])`. -/
abbrev Entry := CStr × Nat

/-- negative `errno` results returned by the callbacks. -/
inductive Err where
  | ENOENT
  | EEXIST
  | ENOTDIR
  | EISDIR
  | ENOTEMPTY
  | EBUSY
  | EPERM
  | ENOSPC
  | ENOMEM
  | Eio
  deriving DecidableEq

instance {ε α : Type} [DecidableEq ε] [DecidableEq α] :
    DecidableEq (Except ε α) := fun x y => by
  cases x <;> cases y
  case error.error a b =>
    exact decidable_of_iff (a = b) (by simp)
  case ok.ok a b =>
    exact decidable_of_iff (a = b) (by simp)
  case error.ok a b =>
    exact isFalse (fun h => Except.noConfusion h)
  case ok.error a b =>
    exact isFalse (fun h => Except.noConfusion h)

/-- one `fused_inode_t` record (the `backing_path` field is determined
by `ino`, see module comment, and the `n_children`/`child_names`/
`child_inodes` triple is the `children` list). -/
structure Inode where
  ino : Nat
  mode : Nat
  uid : Nat
  gid : Nat
  size : Nat
  atime : Nat
  mtime : Nat
  ctime : Nat
  children : List Entry
  deriving DecidableEq

/-- an all-zero inode slot (`memset(inode, 0, sizeof(fused_inode_t))`). -/
def zeroInode : Inode :=
  { ino := 0, mode := 0, uid := 0, gid := 0, size := 0,
    atime := 0, mtime := 0, ctime := 0, children := [] }

/-- the global state `fused_state_t` plus the backing directory contents. -/
structure State where
  inodes : List Inode
  store : List (Nat × List Nat)
  deriving DecidableEq

/-- the inode record at slot `i` (array indexing `g_state->inodes[i]`;
every use is at an index below `n_inodes`). -/
def slot (s : State) (i : Nat) : Inode := s.inodes.getD i zeroInode

/-- overwrite slot `i` (mutation through an inode pointer). -/
def setSlot (s : State) (i : Nat) (v : Inode) : State :=
  { s with inodes := s.inodes.set i v }

/-- linear scan of `lookup_inode`: first slot index whose `ino` matches. -/
def findIno : List Inode → Nat → Option Nat
  | [], _ => none
  | nd :: rest, k => if nd.ino == k then some 0 else (findIno rest k).map (· + 1)

/-- `lookup_inode`, returning the slot index of the matching inode. -/
def lookupIdx (s : State) (k : Nat) : Option Nat := findIno s.inodes k

/-- first entry of a child array satisfying `p` (the C `for` scans). -/
def findEntry : List Entry → (Entry → Bool) → Option Entry
  | [], _ => none
  | e :: rest, p => if p e then some e else findEntry rest p

/-- shift-left removal of the first entry satisfying `p`, as done inside
`dir_rm_entry` and `fused_rmdir`; a list with no match is unchanged. -/
def removeEntry : List Entry → (Entry → Bool) → List Entry
  | [], _ => []
  | e :: rest, p => if p e then rest else e :: removeEntry rest p

/-- read the backing file of inode `k`, if it exists. -/
def storeGet (st : List (Nat × List Nat)) (k : Nat) : Option (List Nat) :=
  (st.find? (fun p => p.1 == k)).map (·.2)

/-- delete the backing file of inode `k` (`unlink`). -/
def storeErase (st : List (Nat × List Nat)) (k : Nat) : List (Nat × List Nat) :=
  st.filter (fun p => !(p.1 == k))

/-- create or replace the backing file of inode `k`. -/
def storeSet (st : List (Nat × List Nat)) (k : Nat) (v : List Nat) :
    List (Nat × List Nat) :=
  (k, v) :: storeErase st k

/-- segments of a C string between `'/'` separators, empty segments
included (an empty string has one empty segment). -/
def splitSlash : List Char → List CStr
  | [] => [[]]
  | c :: rest =>
    let r := splitSlash rest
    if c == '/' then [] :: r
    else (c :: r.headD []) :: r.tail

/-- `strtok_r(path_copy, "/", ...)` segments: maximal runs of
non-slash characters, empty runs skipped. -/
def segs (cs : List Char) : List CStr :=
  (splitSlash cs).filter (fun t => !(t == []))

/-- tokens walked by `path_to_inode`: the C code skips the first
character (`path_copy + 1`) and then applies `strtok_r` with `"/"`. -/
def tokenize (path : CStr) : List CStr := segs (path.drop 1)

/-- split a C string at its last `'/'` (`strrchr`): `some (pre, post)`
with the string equal to `pre ++ '/' :: post`, or `none` if it has no
slash. -/
def lastSplit : CStr → Option (CStr × CStr)
  | [] => none
  | c :: rest =>
    match lastSplit rest with
    | some (p, n) => some (c :: p, n)
    | none => if c == '/' then some ([], rest) else none

/-- `split_path` (also the inline `strrchr` splits of `fused_mkdir` and
`fused_rmdir`, which coincide with it on every input they receive):
parent path and leaf name; the parent of a top-level entry is `"/"`.
On a path with no slash the C code would dereference `strrchr`'s NULL
result; the model totalises that unreachable case as parent `"/"`. -/
def split_path (path : CStr) : CStr × CStr :=
  match lastSplit path with
  | none => (['/'], path)
  | some ([], name) => (['/'], name)
  | some (pre, name) => (pre, name)

/-- the component walk of `path_to_inode`: from slot `idx`, require a
directory, scan its children for the token, advance to the child's slot. -/
def resolveFrom (s : State) : Nat → List CStr → Option Nat
  | idx, [] => some idx
  | idx, t :: rest =>
    let cur := slot s idx
    if !S_ISDIR cur.mode then none
    else
      match findEntry cur.children (fun e => e.1 == t) with
      | none => none
      | some e =>
        match lookupIdx s e.2 with
        | none => none
        | some j => resolveFrom s j rest

/-- `path_to_inode`: resolve a slash-separated path from the root inode
(id 1) to a slot index. -/
def path_to_inode (s : State) (path : CStr) : Option Nat :=
  if path == ['/'] then lookupIdx s 1
  else
    match lookupIdx s 1 with
    | none => none
    | some r => resolveFrom s r (tokenize path)

/-- `alloc_inode`: zero the slot at index `n_inodes`, assign
`ino = n_inodes + 1`, increment `n_inodes`; `none` when the table is
full.  Returns the new state and the new slot's index. -/
def alloc_inode (s : State) : Option (State × Nat) :=
  if s.inodes.length ≥ MAX_INODES then none
  else
    some ({ s with inodes :=
      s.inodes ++ [{ zeroInode with ino := s.inodes.length + 1 }] },
      s.inodes.length)

/-- `free_inode`: unlink the backing file and zero the slot; `n_inodes`
is not decremented (freed ids are never reused). -/
def free_inode (s : State) (idx : Nat) : State :=
  let nd := slot s idx
  { inodes := s.inodes.set idx zeroInode, store := storeErase s.store nd.ino }

/-- `dir_add_entry`: append a `(name, child ino)` entry to a directory,
rejecting a NULL or non-directory target, a full child array, and a
duplicate name; bumps the directory's `mtime`/`ctime`. -/
def dir_add_entry (s : State) (dir : Option Nat) (name : CStr)
    (childIno : Nat) (now : Nat) : Except Err State :=
  match dir with
  | none => .error .ENOTDIR
  | some i =>
    let d := slot s i
    if !S_ISDIR d.mode then .error .ENOTDIR
    else if d.children.length ≥ MAX_CHILDREN then .error .ENOSPC
    else if (findEntry d.children (fun e => e.1 == name)).isSome then .error .EEXIST
    else
      let d' := { d with children := d.children ++ [(name, childIno)],
                         mtime := now, ctime := now }
      .ok { s with inodes := s.inodes.set i d' }

/-- `dir_rm_entry`: remove the first entry matching both the name and
the expected child ino; `ENOENT` when absent; bumps `mtime`/`ctime`. -/
def dir_rm_entry (s : State) (dir : Option Nat) (name : CStr)
    (childIno : Nat) (now : Nat) : Except Err State :=
  match dir with
  | none => .error .ENOTDIR
  | some i =>
    let d := slot s i
    if !S_ISDIR d.mode then .error .ENOTDIR
    else
      match findEntry d.children (fun e => e.1 == name && e.2 == childIno) with
      | none => .error .ENOENT
      | some _ =>
        let d' := { d with children := removeEntry d.children
                             (fun e => e.1 == name && e.2 == childIno),
                           mtime := now, ctime := now }
        .ok { s with inodes := s.inodes.set i d' }

/-- `init_root_inode` as called from `fused_init`: a one-slot table
holding the root directory (id 1, mode `S_IFDIR | 0755`, size 4096),
and an empty backing directory. -/
def initState (uid gid now : Nat) : State :=
  { inodes := [{ ino := 1, mode := S_IFDIR ||| 493, uid := uid, gid := gid,
                 size := 4096, atime := now, mtime := now, ctime := now,
                 children := [] }],
    store := [] }

/-- `fused_open`: resolve, reject directories, reject a write-mode open
without `O_APPEND`, store the ino in the handle, update `atime`. -/
def fused_open (s : State) (path : CStr) (flags : Nat) (now : Nat) :
    Except Err Nat × State :=
  match path_to_inode s path with
  | none => (.error .ENOENT, s)
  | some idx =>
    let nd := slot s idx
    if S_ISDIR nd.mode then (.error .EISDIR, s)
    else
      let accmode := flags &&& O_ACCMODE
      if (accmode == O_WRONLY || accmode == O_RDWR) && flags &&& O_APPEND == 0
      then (.error .EPERM, s)
      else (.ok nd.ino, { s with inodes := s.inodes.set idx { nd with atime := now } })

/-- `fused_read`: look the handle's inode up, return 0 bytes at or past
EOF, otherwise clamp the length at `size`, read from the backing file
(`EIO` if it cannot be opened) and update `atime`.  The returned byte
list is the filled buffer; its length is the C return value. -/
def fused_read (s : State) (fh : Nat) (size : Nat) (offset : Nat) (now : Nat) :
    Except Err (List Nat) × State :=
  match lookupIdx s fh with
  | none => (.error .ENOENT, s)
  | some idx =>
    let nd := slot s idx
    if offset ≥ nd.size then (.ok [], s)
    else
      let toRead := if offset + size > nd.size then nd.size - offset else size
      match storeGet s.store nd.ino with
      | none => (.error .Eio, s)
      | some content =>
        ((.ok ((content.drop offset).take toRead)),
         { s with inodes := s.inodes.set idx { nd with atime := now } })

/-- `fused_write`: look the handle's inode up, reject any offset below
the current size (`EPERM`, append-only), then append a zero-fill for the
gap `[size, offset)` followed by the data to the backing file, and set
`size = offset + len`, refreshing `mtime`/`ctime`.  Returns the byte
count written. -/
def fused_write (s : State) (fh : Nat) (data : List Nat) (offset : Nat)
    (now : Nat) : Except Err Nat × State :=
  match lookupIdx s fh with
  | none => (.error .ENOENT, s)
  | some idx =>
    let nd := slot s idx
    if offset < nd.size then (.error .EPERM, s)
    else
      let content := (storeGet s.store nd.ino).getD []
      let content' := content ++ List.replicate (offset - nd.size) 0 ++ data
      (.ok data.length,
       { inodes := s.inodes.set idx
           { nd with size := offset + data.length, mtime := now, ctime := now },
         store := storeSet s.store nd.ino content' })

/-- `fused_create`: reject an existing path, split into parent and leaf,
reject a missing or non-directory parent (both `ENOENT` in this code),
allocate a fresh file inode (`ENOMEM` when the table is full), create
its empty backing file, then register it in the parent, rolling the
allocation back with `free_inode` when that fails.  Returns the handle. -/
def fused_create (s : State) (path : CStr) (mode : Nat) (ctxUid ctxGid : Nat)
    (now : Nat) : Except Err Nat × State :=
  if (path_to_inode s path).isSome then (.error .EEXIST, s)
  else
    let pp := (split_path path).1
    let cn := (split_path path).2
    match path_to_inode s pp with
    | none => (.error .ENOENT, s)
    | some pidx =>
      if !S_ISDIR (slot s pidx).mode then (.error .ENOENT, s)
      else
        match alloc_inode s with
        | none => (.error .ENOMEM, s)
        | some (s1, idx) =>
          let ino := (slot s1 idx).ino
          let nd' := { slot s1 idx with
                       mode := S_IFREG ||| (mode &&& 511), uid := ctxUid,
                       gid := ctxGid, size := 0,
                       atime := now, mtime := now, ctime := now }
          let s2 := { s1 with inodes := s1.inodes.set idx nd' }
          let s3 := { s2 with store := storeSet s2.store ino [] }
          match dir_add_entry s3 (some pidx) cn ino now with
          | .error rc => (.error rc, free_inode s3 idx)
          | .ok s4 => (.ok ino, s4)

/-- `fused_mkdir`: reject an existing path, split off the parent
(`ENOENT` missing, `ENOTDIR` non-directory), reject a full inode table
(`ENOSPC`), build a directory inode of size 4096, reject a full parent
(`ENOSPC`), then register the name in the parent (no duplicate-name
check: the resolve check already ruled the name out) and commit the new
inode.  The C code writes the new slot before the parent-capacity check
but only increments `n_inodes` after it, so a rejected slot stays
invisible; the model therefore orders the capacity check first. -/
def fused_mkdir (s : State) (path : CStr) (mode : Nat) (uid gid : Nat)
    (now : Nat) : Except Err Unit × State :=
  if (path_to_inode s path).isSome then (.error .EEXIST, s)
  else
    let pp := (split_path path).1
    let dn := (split_path path).2
    match path_to_inode s pp with
    | none => (.error .ENOENT, s)
    | some pidx =>
      let p := slot s pidx
      if !S_ISDIR p.mode then (.error .ENOTDIR, s)
      else if s.inodes.length ≥ MAX_INODES then (.error .ENOSPC, s)
      else if p.children.length ≥ MAX_CHILDREN then (.error .ENOSPC, s)
      else
        let newIno := s.inodes.length + 1
        let newInode : Inode :=
          { ino := newIno, mode := S_IFDIR ||| (mode &&& 511), uid := uid,
            gid := gid, size := 4096, atime := now, mtime := now, ctime := now,
            children := [] }
        (.ok (),
         { s with inodes :=
           (s.inodes.set pidx
             { p with children := p.children ++ [(dn, newIno)],
                      mtime := now, ctime := now }) ++ [newInode] })

/-- `fused_rmdir`: `EBUSY` on the root path, resolve (`ENOENT`), require
a directory (`ENOTDIR`) with no children (`ENOTEMPTY`), then delete the
leaf name from the parent's child arrays (`ENOENT` when the scan finds
no match), bump the parent's `mtime`/`ctime` and zero the inode slot.
`n_inodes` is not decremented and the backing file is not unlinked. -/
def fused_rmdir (s : State) (path : CStr) (now : Nat) : Except Err Unit × State :=
  if path == ['/'] then (.error .EBUSY, s)
  else
    match path_to_inode s path with
    | none => (.error .ENOENT, s)
    | some ridx =>
      let nd := slot s ridx
      if !S_ISDIR nd.mode then (.error .ENOTDIR, s)
      else if nd.children.length > 0 then (.error .ENOTEMPTY, s)
      else
        let pp := (split_path path).1
        let dn := (split_path path).2
        match path_to_inode s pp with
        | none => (.error .ENOENT, s)
        | some pidx =>
          let p := slot s pidx
          match findEntry p.children (fun e => e.1 == dn) with
          | none => (.error .ENOENT, s)
          | some _ =>
            let p' := { p with
                          children := removeEntry p.children (fun e => e.1 == dn),
                          mtime := now, ctime := now }
            let s1 := { s with inodes := s.inodes.set pidx p' }
            (.ok (), { s1 with inodes := s1.inodes.set ridx zeroInode })

/-- `fused_rename`: `ENOENT` when the source does not resolve, `EEXIST`
when the destination already resolves; then remove the source entry
from its parent, refresh the moved inode's `atime`/`mtime`, and add the
entry under the destination parent.  A failure of the add step returns
after the removal already happened (the orphaning noted in the design
notes). -/
def fused_rename (s : State) (src dst : CStr) (now : Nat) :
    Except Err Unit × State :=
  match path_to_inode s src with
  | none => (.error .ENOENT, s)
  | some fidx =>
    if (path_to_inode s dst).isSome then (.error .EEXIST, s)
    else
      let ino := (slot s fidx).ino
      match dir_rm_entry s (path_to_inode s (split_path src).1)
          (split_path src).2 ino now with
      | .error rc => (.error rc, s)
      | .ok s1 =>
        let nd := slot s1 fidx
        let nd' := { nd with atime := now, mtime := now }
        let s2 := { s1 with inodes := s1.inodes.set fidx nd' }
        match dir_add_entry s2 (path_to_inode s2 (split_path dst).1)
            (split_path dst).2 ino now with
        | .error rc => (.error rc, s2)
        | .ok s3 => (.ok (), s3)

/-- one mutating call, for reasoning about operation sequences.  The
identity/time arguments are carried in each constructor. -/
inductive Op where
  | create (path : CStr) (mode ctxUid ctxGid now : Nat)
  | mkdir (path : CStr) (mode uid gid now : Nat)
  | rmdir (path : CStr) (now : Nat)
  | rename (src dst : CStr) (now : Nat)
  | write (fh : Nat) (data : List Nat) (offset now : Nat)

/-- the post-state of one mutating call. -/
def applyOp (s : State) : Op → State
  | .create p m u g t => (fused_create s p m u g t).2
  | .mkdir p m u g t => (fused_mkdir s p m u g t).2
  | .rmdir p t => (fused_rmdir s p t).2
  | .rename a b t => (fused_rename s a b t).2
  | .write fh d off t => (fused_write s fh d off t).2


/-- agreement of two states up to permission bits, owner and group:
the stores, the table length and, slot by slot, the inode number, size,
timestamps, children and file-type bits (`mode & S_IFMT`) coincide,
while the permission bits of `mode`, `uid` and `gid` are unconstrained. -/
structure ModeEquiv (s t : State) : Prop where
  store_eq : s.store = t.store
  len_eq : s.inodes.length = t.inodes.length
  ino_eq : ∀ i, (slot s i).ino = (slot t i).ino
  size_eq : ∀ i, (slot s i).size = (slot t i).size
  atime_eq : ∀ i, (slot s i).atime = (slot t i).atime
  mtime_eq : ∀ i, (slot s i).mtime = (slot t i).mtime
  ctime_eq : ∀ i, (slot s i).ctime = (slot t i).ctime
  children_eq : ∀ i, (slot s i).children = (slot t i).children
  mask_eq : ∀ i, (slot s i).mode &&& S_IFMT = (slot t i).mode &&& S_IFMT

/-- the root-preservation invariant: the table is nonempty, slot 0
holds the root (id 1, a directory), and no directory entry anywhere
points at id 1 (the root has no parent entry). -/
def rootInv (s : State) : Prop :=
  0 < s.inodes.length ∧
  (slot s 0).ino = 1 ∧
  S_ISDIR ((slot s 0).mode) = true ∧
  ∀ nd ∈ s.inodes, ∀ e ∈ nd.children, e.2 ≠ 1

/-! Concrete states used by counterexamples and witnesses. -/

namespace W

/-- directory mode `S_IFDIR | 0755`. -/
def dirMode : Nat := S_IFDIR ||| 493

/-- regular-file mode `S_IFREG | 0644`. -/
def fileMode : Nat := S_IFREG ||| 420

/-- a state holding the root and one regular file `/a` (ino 2) with
six bytes of content. -/
def stA : State :=
  { inodes := [{ ino := 1, mode := dirMode, uid := 0, gid := 0, size := 4096,
                 atime := 0, mtime := 0, ctime := 0,
                 children := [("a".toList, 2)] },
               { ino := 2, mode := fileMode, uid := 0, gid := 0, size := 6,
                 atime := 0, mtime := 0, ctime := 0, children := [] }],
    store := [(2, [104, 105, 0, 0, 0, 7])] }

/-- `stA` with different permission bits and owner on the file `/a`
(mode `S_IFREG | 0400`, uid/gid 9). -/
def stB : State :=
  { inodes := [{ ino := 1, mode := dirMode, uid := 0, gid := 0, size := 4096,
                 atime := 0, mtime := 0, ctime := 0,
                 children := [("a".toList, 2)] },
               { ino := 2, mode := S_IFREG ||| 256, uid := 9, gid := 9, size := 6,
                 atime := 0, mtime := 0, ctime := 0, children := [] }],
    store := [(2, [104, 105, 0, 0, 0, 7])] }

/-- a state whose slot 1 was freed (zeroed): ino 2 is gone for good. -/
def stGap : State :=
  { inodes := [{ ino := 1, mode := dirMode, uid := 0, gid := 0, size := 4096,
                 atime := 0, mtime := 0, ctime := 0, children := [] },
               zeroInode],
    store := [] }

/-- a state whose inode table is at full capacity (`MAX_INODES` slots):
the root plus 4095 freed slots. -/
def stCap : State :=
  { inodes := { ino := 1, mode := dirMode, uid := 0, gid := 0, size := 4096,
                atime := 0, mtime := 0, ctime := 0, children := [] }
        :: List.replicate 4095 zeroInode,
    store := [] }

/-- a tree with a directory `/d` (ino 2) holding an empty
subdirectory `/d/e` (ino 3). -/
def stD : State :=
  { inodes := [{ ino := 1, mode := dirMode, uid := 0, gid := 0, size := 4096,
                 atime := 0, mtime := 0, ctime := 0,
                 children := [("d".toList, 2)] },
               { ino := 2, mode := dirMode, uid := 0, gid := 0, size := 4096,
                 atime := 0, mtime := 0, ctime := 0,
                 children := [("e".toList, 3)] },
               { ino := 3, mode := dirMode, uid := 0, gid := 0, size := 4096,
                 atime := 0, mtime := 0, ctime := 0, children := [] }],
    store := [] }

/-- a state holding the root and one empty regular file `/f` (ino 2). -/
def stF : State :=
  { inodes := [{ ino := 1, mode := dirMode, uid := 0, gid := 0, size := 4096,
                 atime := 0, mtime := 0, ctime := 0,
                 children := [("f".toList, 2)] },
               { ino := 2, mode := fileMode, uid := 0, gid := 0, size := 0,
                 atime := 0, mtime := 0, ctime := 0, children := [] }],
    store := [(2, [])] }

end W

/-! Helper lemmas about the scan primitives. -/

/-- a successful `lookup_inode` scan yields an in-range slot whose
`ino` is the searched id. -/
lemma findIno_some {l : List Inode} {k i : Nat} (h : findIno l k = some i) :
    i < l.length ∧ (l.getD i zeroInode).ino = k := by
  induction l generalizing i with
  | nil => simp [findIno] at h
  | cons nd rest ih =>
    simp only [findIno] at h
    by_cases hk : nd.ino = k
    · simp [hk] at h
      subst h
      simp [hk]
    · simp [hk, Option.map_eq_some'] at h
      obtain ⟨j, hj, hji⟩ := h
      obtain ⟨hlt, hget⟩ := ih hj
      subst hji
      exact ⟨Nat.succ_lt_succ hlt, by simpa using hget⟩

/-- overwriting a slot with an inode of the same `ino` does not change
any `lookup_inode` scan. -/
lemma findIno_set {l : List Inode} {i : Nat} {v : Inode}
    (h : (l.getD i zeroInode).ino = v.ino) (k : Nat) :
    findIno (l.set i v) k = findIno l k := by
  induction l generalizing i with
  | nil => simp
  | cons nd rest ih =>
    cases i with
    | zero => simp only [List.getD_cons_zero] at h; simp [findIno, h]
    | succ j =>
      simp only [List.getD_cons_succ] at h
      simp [findIno, List.set_cons_succ, ih h]

/-- reading back the slot just written. -/
lemma getD_set_self {l : List Inode} {i : Nat} (v : Inode)
    (h : i < l.length) : (l.set i v).getD i zeroInode = v := by
  induction l generalizing i with
  | nil => simp at h
  | cons nd rest ih =>
    cases i with
    | zero => simp
    | succ j => simpa using ih (Nat.lt_of_succ_lt_succ h)

/-- a slot other than the one written is unchanged. -/
lemma getD_set_ne {l : List Inode} {i j : Nat} (v : Inode)
    (h : i ≠ j) : (l.set i v).getD j zeroInode = l.getD j zeroInode := by
  induction l generalizing i j with
  | nil => simp
  | cons nd rest ih =>
    cases i with
    | zero => cases j with
      | zero => exact absurd rfl h
      | succ j' => simp
    | succ i' => cases j with
      | zero => simp
      | succ j' => simpa using ih (fun hc => h (by rw [hc]))

/-- reading back a backing file just written. -/
lemma storeGet_storeSet_self (st : List (Nat × List Nat)) (k : Nat)
    (v : List Nat) : storeGet (storeSet st k v) k = some v := by
  simp [storeGet, storeSet, List.find?]

/-- C3: a write strictly below the current size fails `EPERM` and
leaves the whole state (size, content, namespace) unchanged. -/
theorem write_below_size_rejected (s : State) (fh : Nat) (data : List Nat)
    (offset now idx : Nat)
    (hidx : lookupIdx s fh = some idx)
    (hfile : S_ISDIR ((slot s idx).mode) = false)
    (hlt : offset < (slot s idx).size) :
    fused_write s fh data offset now = (.error .EPERM, s) := by
  simp only [fused_write, hidx]
  simp [hlt]

/-- witness for `write_below_size_rejected`: writing at offset 3 of a
6-byte file is rejected with the state intact. -/
theorem write_below_size_rejected_witness :
    lookupIdx W.stA 2 = some 1 ∧
    S_ISDIR ((slot W.stA 1).mode) = false ∧
    3 < (slot W.stA 1).size ∧
    fused_write W.stA 2 [9] 3 5 = (.error .EPERM, W.stA) :=
  ⟨by decide, by decide, by decide,
   write_below_size_rejected W.stA 2 [9] 3 5 1 (by decide) (by decide) (by decide)⟩

/-- C1 (code bug): `rename` is not all-or-nothing.  On `W.stA`,
`/a` resolves and `/nope/b` does not, yet `rename("/a","/nope/b")`
fails `ENOTDIR` after already detaching `/a`: afterwards `/a` no longer
resolves, so a failed rename has mutated the namespace. -/
theorem rename_failure_detaches_source :
    path_to_inode W.stA "/a".toList = some 1 ∧
    path_to_inode W.stA "/nope/b".toList = none ∧
    (fused_rename W.stA "/a".toList "/nope/b".toList 7).1 = .error .ENOTDIR ∧
    path_to_inode (fused_rename W.stA "/a".toList "/nope/b".toList 7).2
      "/a".toList = none := by
  decide

/-- C2 (code bug): renaming a path to itself is not a no-op success.
On `W.stA`, `/a` resolves, and `rename("/a","/a")` returns `EEXIST`
(the destination-exists check fires before any self-rename handling). -/
theorem rename_self_returns_eexist :
    path_to_inode W.stA "/a".toList = some 1 ∧
    fused_rename W.stA "/a".toList "/a".toList 7 = (.error .EEXIST, W.stA) := by
  decide

/-- C5 counterexample: with `/f` a regular file, `create("/f/x")` has a
resolving non-directory parent, but returns `ENOENT`, not the
`ENOTDIR` the claim requires. -/
theorem create_nondir_parent_enoent_cex :
    path_to_inode W.stF "/f/x".toList = none ∧
    split_path "/f/x".toList = ("/f".toList, "x".toList) ∧
    path_to_inode W.stF "/f".toList = some 1 ∧
    S_ISDIR ((slot W.stF 1).mode) = false ∧
    (fused_create W.stF "/f/x".toList 420 0 0 1).1 ≠ .error .ENOTDIR ∧
    (fused_create W.stF "/f/x".toList 420 0 0 1).1 = .error .ENOENT := by
  decide

/-- C5 amended: `create` fails `EEXIST` when the path already resolves;
otherwise it fails `ENOENT` both when the parent path does not resolve
and when it resolves to a non-directory (the code folds the spec's
`NotADirectory` case into `NotFound`), in each case leaving the state
unchanged. -/
theorem create_error_cases (s : State) (path : CStr) (mode u g now : Nat) :
    ((path_to_inode s path).isSome →
      fused_create s path mode u g now = (.error .EEXIST, s)) ∧
    (path_to_inode s path = none →
      path_to_inode s (split_path path).1 = none →
      fused_create s path mode u g now = (.error .ENOENT, s)) ∧
    (∀ pidx, path_to_inode s path = none →
      path_to_inode s (split_path path).1 = some pidx →
      S_ISDIR ((slot s pidx).mode) = false →
      fused_create s path mode u g now = (.error .ENOENT, s)) := by
  refine ⟨fun h => ?_, fun h hp => ?_, fun pidx h hp hd => ?_⟩
  · simp [fused_create, h]
  · simp [fused_create, h, hp]
  · simp [fused_create, h, hp, hd]

/-- witness for `create_error_cases`: all three error branches fire on
`W.stF`. -/
theorem create_error_cases_witness :
    fused_create W.stF "/f".toList 420 0 0 1 = (.error .EEXIST, W.stF) ∧
    fused_create W.stF "/nope/x".toList 420 0 0 1 = (.error .ENOENT, W.stF) ∧
    fused_create W.stF "/f/x".toList 420 0 0 1 = (.error .ENOENT, W.stF) :=
  ⟨(create_error_cases W.stF "/f".toList 420 0 0 1).1 (by decide),
   (create_error_cases W.stF "/nope/x".toList 420 0 0 1).2.1 (by decide) (by decide),
   (create_error_cases W.stF "/f/x".toList 420 0 0 1).2.2 1 (by decide) (by decide)
     (by decide)⟩

/-- C6: `open` on a resolving path fails `EISDIR` on a directory;
on a file it fails `EPERM` when write access is requested without
`O_APPEND`; otherwise it succeeds, returns the inode id as the handle,
and updates only `atime`. -/
theorem open_contract (s : State) (path : CStr) (flags now idx : Nat)
    (hidx : path_to_inode s path = some idx) :
    (S_ISDIR ((slot s idx).mode) = true →
      fused_open s path flags now = (.error .EISDIR, s)) ∧
    (S_ISDIR ((slot s idx).mode) = false →
      (flags &&& O_ACCMODE == O_WRONLY || flags &&& O_ACCMODE == O_RDWR) = true →
      flags &&& O_APPEND = 0 →
      fused_open s path flags now = (.error .EPERM, s)) ∧
    (S_ISDIR ((slot s idx).mode) = false →
      (flags &&& O_ACCMODE == O_WRONLY || flags &&& O_ACCMODE == O_RDWR) = false
        ∨ flags &&& O_APPEND ≠ 0 →
      fused_open s path flags now =
        (.ok ((slot s idx).ino),
         setSlot s idx ({ slot s idx with atime := now }))) := by
  refine ⟨fun hd => ?_, fun hd hw ha => ?_, fun hd hok => ?_⟩
  · simp [fused_open, hidx, hd]
  · simp [fused_open, hidx, hd, hw, ha]
  · rcases hok with hro | hap
    · simp [fused_open, hidx, hd, hro, setSlot]
    · simp [fused_open, hidx, hd, hap, setSlot]

/-- witness for `open_contract`: the three branches on `W.stA`. -/
theorem open_contract_witness :
    fused_open W.stA "/".toList 1025 3 = (.error .EISDIR, W.stA) ∧
    fused_open W.stA "/a".toList 1 3 = (.error .EPERM, W.stA) ∧
    (fused_open W.stA "/a".toList 1025 3).1 = .ok 2 :=
  ⟨(open_contract W.stA "/".toList 1025 3 0 (by decide)).1 (by decide),
   (open_contract W.stA "/a".toList 1 3 1 (by decide)).2.1 (by decide) (by decide)
     (by decide),
   by
     rw [(open_contract W.stA "/a".toList 1025 3 1 (by decide)).2.2 (by decide)
       (Or.inr (by decide))]
     decide⟩

/-- C4: an append-or-beyond write succeeds, returns the data length,
sets the size to `offset + len(data)`, and when the offset lies beyond
the old size the gap `[S, offset)` is zero-filled: reading that range
back yields all-zero bytes. -/
theorem write_append_zero_fill (s : State) (fh : Nat) (data : List Nat)
    (offset now idx : Nat) (content : List Nat)
    (hidx : lookupIdx s fh = some idx)
    (hfile : S_ISDIR ((slot s idx).mode) = false)
    (hstore : storeGet s.store (slot s idx).ino = some content)
    (hlen : content.length = (slot s idx).size)
    (hge : (slot s idx).size ≤ offset) :
    (fused_write s fh data offset now).1 = .ok data.length ∧
    (slot (fused_write s fh data offset now).2 idx).size = offset + data.length ∧
    ((slot s idx).size < offset →
      (fused_read (fused_write s fh data offset now).2 fh
          (offset - (slot s idx).size) ((slot s idx).size) now).1
        = .ok (List.replicate (offset - (slot s idx).size) 0)) := by
  have hnotlt : ¬ offset < (slot s idx).size := Nat.not_lt.mpr hge
  have hlt' := (findIno_some hidx).1
  simp only [fused_write, hidx, hstore, if_neg hnotlt, Option.getD_some]
  refine ⟨trivial, ?_, fun hgap => ?_⟩
  · simp only [slot]
    rw [getD_set_self _ hlt']
  · have hxidx : lookupIdx
        (⟨s.inodes.set idx
            { slot s idx with size := offset + data.length,
                              mtime := now, ctime := now },
          storeSet s.store (slot s idx).ino
            (content ++ List.replicate (offset - (slot s idx).size) 0 ++ data)⟩
          : State) fh = some idx := by
      simp only [lookupIdx]
      rw [findIno_set (by simp [slot]) fh]
      exact hidx
    simp only [fused_read, hxidx]
    have hslotx : slot
        (⟨s.inodes.set idx
            { slot s idx with size := offset + data.length,
                              mtime := now, ctime := now },
          storeSet s.store (slot s idx).ino
            (content ++ List.replicate (offset - (slot s idx).size) 0 ++ data)⟩
          : State) idx
        = { slot s idx with size := offset + data.length,
                            mtime := now, ctime := now } := by
      simp only [slot]
      rw [getD_set_self _ hlt']
    rw [hslotx]
    have hbig : ¬ (slot s idx).size ≥ offset + data.length := by
      simp only [ge_iff_le, Nat.not_le]
      exact Nat.lt_of_lt_of_le hgap (Nat.le_add_right _ _)
    rw [if_neg hbig]
    have hsum : (slot s idx).size + (offset - (slot s idx).size) = offset :=
      Nat.add_sub_cancel' hge
    have hclamp : ¬ (slot s idx).size + (offset - (slot s idx).size)
        > offset + data.length := by
      rw [hsum]
      exact Nat.not_lt.mpr (Nat.le_add_right _ _)
    rw [if_neg hclamp]
    rw [storeGet_storeSet_self]
    simp only [Option.map_some]
    rw [List.append_assoc]
    rw [List.drop_left' hlen]
    rw [List.take_left' (List.length_replicate _ _)]

/-- witness for `write_append_zero_fill`: writing one byte at offset 9
of the 6-byte file `/a` yields size 10 and three zero bytes in the gap. -/
theorem write_append_zero_fill_witness :
    lookupIdx W.stA 2 = some 1 ∧
    (fused_write W.stA 2 [42] 9 5).1 = .ok 1 ∧
    (slot (fused_write W.stA 2 [42] 9 5).2 1).size = 10 ∧
    (fused_read (fused_write W.stA 2 [42] 9 5).2 2 3 6 5).1
      = .ok (List.replicate 3 0) :=
  ⟨by decide,
   (write_append_zero_fill W.stA 2 [42] 9 5 1 [104, 105, 0, 0, 0, 7]
      (by decide) (by decide) (by decide) (by decide) (by decide)).1,
   (write_append_zero_fill W.stA 2 [42] 9 5 1 [104, 105, 0, 0, 0, 7]
      (by decide) (by decide) (by decide) (by decide) (by decide)).2.1,
   by
     have h := (write_append_zero_fill W.stA 2 [42] 9 5 1 [104, 105, 0, 0, 0, 7]
       (by decide) (by decide) (by decide) (by decide) (by decide)).2.2
       (by decide)
     simpa using h⟩

/-- slot contents after an arbitrary slot write, all cases. -/
lemma getD_set_full (l : List Inode) (i j : Nat) (v : Inode) :
    (l.set i v).getD j zeroInode =
      if j = i ∧ i < l.length then v else l.getD j zeroInode := by
  induction l generalizing i j with
  | nil => simp
  | cons nd rest ih =>
    cases i with
    | zero =>
      cases j with
      | zero => simp
      | succ j' => simp
    | succ i' =>
      cases j with
      | zero => simp
      | succ j' =>
        simp only [List.set_cons_succ, List.getD_cons_succ, List.length_cons]
        rw [ih]
        by_cases hc : j' = i' ∧ i' < rest.length
        · rw [if_pos hc, if_pos ⟨by rw [hc.1], Nat.succ_lt_succ hc.2⟩]
        · rw [if_neg hc, if_neg (fun hc2 => hc
            ⟨Nat.succ_injective hc2.1, Nat.lt_of_succ_lt_succ hc2.2⟩)]

/-- the `lookup_inode` scan only depends on the slotwise inode ids. -/
lemma findIno_congr {l₁ l₂ : List Inode} (hlen : l₁.length = l₂.length)
    (hino : ∀ i, (l₁.getD i zeroInode).ino = (l₂.getD i zeroInode).ino)
    (k : Nat) : findIno l₁ k = findIno l₂ k := by
  induction l₁ generalizing l₂ with
  | nil =>
    cases l₂ with
    | nil => rfl
    | cons b bs => simp at hlen
  | cons a as ih =>
    cases l₂ with
    | nil => simp at hlen
    | cons b bs =>
      have h0 := hino 0
      simp only [List.getD_cons_zero] at h0
      by_cases hk : b.ino = k
      · simp [findIno, h0, hk]
      · simp only [findIno, h0]
        rw [if_neg (by simpa using hk), if_neg (by simpa using hk)]
        rw [ih (by simpa using hlen) (fun i => by simpa using hino (i + 1))]

/-- path walking only depends on the mode-insensitive state components. -/
lemma resolveFrom_congr {s t : State} (h : ModeEquiv s t) (r : Nat)
    (toks : List CStr) : resolveFrom s r toks = resolveFrom t r toks := by
  induction toks generalizing r with
  | nil => rfl
  | cons tk rest ih =>
    have hdir : S_ISDIR (slot t r).mode = S_ISDIR (slot s r).mode := by
      simp only [S_ISDIR, h.mask_eq r]
    simp only [resolveFrom]
    rw [hdir, ← h.children_eq r]
    cases hsd : S_ISDIR (slot s r).mode with
    | false => simp
    | true =>
      simp only [Bool.not_true, Bool.false_eq_true, if_false]
      cases hfe : findEntry (slot s r).children (fun e => e.1 == tk) with
      | none => rfl
      | some e =>
        have hlk : lookupIdx s e.2 = lookupIdx t e.2 :=
          findIno_congr h.len_eq (fun i => h.ino_eq i) e.2
        dsimp only
        rw [← hlk]
        cases hj : lookupIdx s e.2 with
        | none => rfl
        | some j =>
          dsimp only
          exact ih j

/-- path resolution only depends on the mode-insensitive components. -/
lemma path_to_inode_congr {s t : State} (h : ModeEquiv s t) (path : CStr) :
    path_to_inode s path = path_to_inode t path := by
  have hlk : lookupIdx s 1 = lookupIdx t 1 :=
    findIno_congr h.len_eq (fun i => h.ino_eq i) 1
  simp only [path_to_inode, ← hlk]
  by_cases hp : (path == ['/']) = true
  · simp [hp]
  · simp only [hp, if_false]
    cases hr : lookupIdx s 1 with
    | none => rfl
    | some r =>
      dsimp only
      rw [resolveFrom_congr h r]

/-- writing mode-insensitively equal inodes into equal slots of
mode-equivalent states, with equal stores, preserves the equivalence. -/
lemma modeEquiv_update {s t : State} (h : ModeEquiv s t) (i : Nat)
    {vs vt : Inode}
    (hino : vs.ino = vt.ino) (hsize : vs.size = vt.size)
    (hat : vs.atime = vt.atime) (hmt : vs.mtime = vt.mtime)
    (hct : vs.ctime = vt.ctime) (hch : vs.children = vt.children)
    (hmask : vs.mode &&& S_IFMT = vt.mode &&& S_IFMT)
    {st1 st2 : List (Nat × List Nat)} (hst : st1 = st2) :
    ModeEquiv ⟨s.inodes.set i vs, st1⟩ ⟨t.inodes.set i vt, st2⟩ := by
  have Hs : ∀ j, slot (⟨s.inodes.set i vs, st1⟩ : State) j =
      if j = i ∧ i < s.inodes.length then vs else slot s j := by
    intro j
    simp only [slot]
    exact getD_set_full s.inodes i j vs
  have Ht : ∀ j, slot (⟨t.inodes.set i vt, st2⟩ : State) j =
      if j = i ∧ i < s.inodes.length then vt else slot t j := by
    intro j
    simp only [slot]
    rw [getD_set_full t.inodes i j vt, ← h.len_eq]
  refine ⟨hst, by simp [h.len_eq], ?_, ?_, ?_, ?_, ?_, ?_, ?_⟩ <;> intro j <;>
    rw [Hs j, Ht j] <;> by_cases hc : j = i ∧ i < s.inodes.length
  · rw [if_pos hc, if_pos hc]; exact hino
  · rw [if_neg hc, if_neg hc]; exact h.ino_eq j
  · rw [if_pos hc, if_pos hc]; exact hsize
  · rw [if_neg hc, if_neg hc]; exact h.size_eq j
  · rw [if_pos hc, if_pos hc]; exact hat
  · rw [if_neg hc, if_neg hc]; exact h.atime_eq j
  · rw [if_pos hc, if_pos hc]; exact hmt
  · rw [if_neg hc, if_neg hc]; exact h.mtime_eq j
  · rw [if_pos hc, if_pos hc]; exact hct
  · rw [if_neg hc, if_neg hc]; exact h.ctime_eq j
  · rw [if_pos hc, if_pos hc]; exact hch
  · rw [if_neg hc, if_neg hc]; exact h.children_eq j
  · rw [if_pos hc, if_pos hc]; exact hmask
  · rw [if_neg hc, if_neg hc]; exact h.mask_eq j

/-- C10: permission and ownership bits are stored but never enforced:
on two states that agree up to permission bits, `uid` and `gid`,
the operations `open`, `read` and `write` return identical results and
produce again mode-equivalent post-states; in particular `open` with
write access in append mode succeeds on a file regardless of its
permission bits and owner. -/
theorem mode_bits_not_enforced (s t : State) (h : ModeEquiv s t) :
    (∀ path flags now,
      (fused_open s path flags now).1 = (fused_open t path flags now).1 ∧
      ModeEquiv (fused_open s path flags now).2 (fused_open t path flags now).2) ∧
    (∀ fh size offset now,
      (fused_read s fh size offset now).1 = (fused_read t fh size offset now).1 ∧
      ModeEquiv (fused_read s fh size offset now).2
        (fused_read t fh size offset now).2) ∧
    (∀ fh data offset now,
      (fused_write s fh data offset now).1 = (fused_write t fh data offset now).1 ∧
      ModeEquiv (fused_write s fh data offset now).2
        (fused_write t fh data offset now).2) ∧
    (∀ path flags now idx, path_to_inode s path = some idx →
      S_ISDIR ((slot s idx).mode) = false →
      flags &&& O_APPEND ≠ 0 →
      (fused_open s path flags now).1 = .ok ((slot s idx).ino)) := by
  have hlk : ∀ k, lookupIdx s k = lookupIdx t k :=
    fun k => findIno_congr h.len_eq (fun i => h.ino_eq i) k
  refine ⟨fun path flags now => ?_, fun fh size offset now => ?_,
    fun fh data offset now => ?_, fun path flags now idx hres hfile hap => ?_⟩
  · have hpc := path_to_inode_congr h path
    simp only [fused_open, ← hpc]
    cases hp : path_to_inode s path with
    | none => exact ⟨rfl, h⟩
    | some idx =>
      dsimp only
      have hdir : S_ISDIR ((slot t idx).mode) = S_ISDIR ((slot s idx).mode) := by
        simp only [S_ISDIR, h.mask_eq idx]
      rw [hdir]
      by_cases hsd : S_ISDIR ((slot s idx).mode) = true
      · rw [if_pos hsd, if_pos hsd]
        exact ⟨rfl, h⟩
      · rw [if_neg hsd, if_neg hsd]
        by_cases hw : ((flags &&& O_ACCMODE == O_WRONLY
            || flags &&& O_ACCMODE == O_RDWR) && flags &&& O_APPEND == 0) = true
        · rw [if_pos hw, if_pos hw]
          exact ⟨rfl, h⟩
        · rw [if_neg hw, if_neg hw]
          refine ⟨by simp [h.ino_eq idx], ?_⟩
          apply modeEquiv_update h
          · exact h.ino_eq idx
          · exact h.size_eq idx
          · rfl
          · exact h.mtime_eq idx
          · exact h.ctime_eq idx
          · exact h.children_eq idx
          · exact h.mask_eq idx
          · exact h.store_eq
  · simp only [fused_read, ← hlk fh]
    cases hl : lookupIdx s fh with
    | none => exact ⟨rfl, h⟩
    | some idx =>
      dsimp only
      rw [← h.size_eq idx]
      by_cases hoff : offset ≥ (slot s idx).size
      · rw [if_pos hoff, if_pos hoff]
        exact ⟨rfl, h⟩
      · rw [if_neg hoff, if_neg hoff]
        rw [← h.store_eq, ← h.ino_eq idx]
        cases hsg : storeGet s.store ((slot s idx).ino) with
        | none => exact ⟨rfl, h⟩
        | some content =>
          dsimp only
          refine ⟨rfl, ?_⟩
          apply modeEquiv_update h
          · rfl
          · rfl
          · rfl
          · exact h.mtime_eq idx
          · exact h.ctime_eq idx
          · exact h.children_eq idx
          · exact h.mask_eq idx
          · rfl
  · simp only [fused_write, ← hlk fh]
    cases hl : lookupIdx s fh with
    | none => exact ⟨rfl, h⟩
    | some idx =>
      dsimp only
      rw [← h.size_eq idx]
      by_cases hoff : offset < (slot s idx).size
      · rw [if_pos hoff, if_pos hoff]
        exact ⟨rfl, h⟩
      · rw [if_neg hoff, if_neg hoff]
        rw [← h.store_eq, ← h.ino_eq idx]
        refine ⟨rfl, ?_⟩
        apply modeEquiv_update h
        · rfl
        · rfl
        · exact h.atime_eq idx
        · rfl
        · rfl
        · exact h.children_eq idx
        · exact h.mask_eq idx
        · rfl
  · have happ : (flags &&& O_APPEND == 0) = false := by simpa using hap
    simp [fused_open, hres, hfile, happ]

/-- witness for `mode_bits_not_enforced`: `W.stA` against a copy whose
file has different permission bits and owner; an append-write open of
`/a` succeeds on both. -/
theorem mode_bits_not_enforced_witness :
    (fused_open W.stA "/a".toList 1025 3).1
      = (fused_open W.stB "/a".toList 1025 3).1 ∧
    (fused_open W.stA "/a".toList 1025 3).1 = .ok 2 :=
  ⟨((mode_bits_not_enforced W.stA W.stB (by
      refine ⟨rfl, rfl, ?_, ?_, ?_, ?_, ?_, ?_, ?_⟩ <;>
        (intro i
         match i with
         | 0 => decide
         | 1 => decide
         | (n + 2) =>
           simp [slot, W.stA, W.stB, List.getD_cons_succ, List.getD_nil]))).1
     "/a".toList 1025 3).1,
   (mode_bits_not_enforced W.stA W.stA (by
      refine ⟨rfl, rfl, ?_, ?_, ?_, ?_, ?_, ?_, ?_⟩ <;> (intro i; rfl))).2.2.2
     "/a".toList 1025 3 1 (by decide) (by decide) (by decide)⟩

/-- a `lookup_inode` scan fails exactly when no slot carries the id. -/
lemma findIno_eq_none_iff {l : List Inode} {k : Nat} :
    findIno l k = none ↔ ∀ nd ∈ l, nd.ino ≠ k := by
  induction l with
  | nil => simp [findIno]
  | cons a as ih =>
    by_cases hk : a.ino = k
    · simp [findIno, hk]
    · simp [findIno, hk, ih]

/-- an indexed slot read is a member of the table or the zero default. -/
lemma getD_mem_or_zero (l : List Inode) (i : Nat) :
    l.getD i zeroInode ∈ l ∨ l.getD i zeroInode = zeroInode := by
  induction l generalizing i with
  | nil => right; simp
  | cons a as ih =>
    cases i with
    | zero => left; simp
    | succ j =>
      rcases ih j with hm | hz
      · left
        simp only [List.getD_cons_succ]
        exact List.mem_cons_of_mem a hm
      · right
        simp only [List.getD_cons_succ]
        exact hz

/-- the slot appended by `alloc_inode` reads back as itself. -/
lemma getD_append_len (l : List Inode) (x : Inode) :
    (l ++ [x]).getD l.length zeroInode = x := by
  induction l with
  | nil => simp
  | cons a as ih => simpa using ih

/-- inversion of a successful `alloc_inode`. -/
lemma alloc_inode_some {s s1 : State} {idx : Nat}
    (h : alloc_inode s = some (s1, idx)) :
    s1 = { s with inodes :=
      s.inodes ++ [{ zeroInode with ino := s.inodes.length + 1 }] } ∧
    idx = s.inodes.length := by
  unfold alloc_inode at h
  split at h
  · simp at h
  · simp only [Option.some.injEq, Prod.mk.injEq] at h
    exact ⟨h.1.symm, h.2.symm⟩

/-- a found entry is a member satisfying the predicate. -/
lemma findEntry_mem {l : List Entry} {p : Entry → Bool} {e : Entry}
    (h : findEntry l p = some e) : e ∈ l ∧ p e = true := by
  induction l with
  | nil => simp [findEntry] at h
  | cons a as ih =>
    simp only [findEntry] at h
    by_cases hp : p a
    · rw [if_pos hp] at h
      obtain rfl : a = e := by injection h
      exact ⟨List.mem_cons_self a as, hp⟩
    · rw [if_neg hp] at h
      obtain ⟨hm, hpe⟩ := ih h
      exact ⟨List.mem_cons_of_mem a hm, hpe⟩

/-- inversion of a successful `dir_add_entry`. -/
lemma dir_add_entry_ok {s : State} {d : Option Nat} {n : CStr} {c t : Nat}
    {s' : State} (h : dir_add_entry s d n c t = .ok s') :
    ∃ i, d = some i ∧
      s' = setSlot s i ({ slot s i with
        children := (slot s i).children ++ [(n, c)],
        mtime := t, ctime := t }) := by
  cases d with
  | none => simp [dir_add_entry] at h
  | some i =>
    refine ⟨i, rfl, ?_⟩
    simp only [dir_add_entry] at h
    split at h
    · simp at h
    · split at h
      · simp at h
      · split at h
        · simp at h
        · simp only [Except.ok.injEq] at h
          exact h.symm

/-- inversion of a successful `dir_rm_entry`: it names the directory
slot, exhibits the matched entry, and gives the post-state shape. -/
lemma dir_rm_entry_ok {s : State} {d : Option Nat} {n : CStr} {c t : Nat}
    {s' : State} (h : dir_rm_entry s d n c t = .ok s') :
    ∃ i, d = some i ∧
      (∃ e ∈ (slot s i).children, (e.1 == n && e.2 == c) = true) ∧
      s' = setSlot s i ({ slot s i with
        children := removeEntry (slot s i).children
          (fun e => e.1 == n && e.2 == c),
        mtime := t, ctime := t }) := by
  cases d with
  | none => simp [dir_rm_entry] at h
  | some i =>
    refine ⟨i, rfl, ?_, ?_⟩
    · simp only [dir_rm_entry] at h
      split at h
      · simp at h
      · split at h
        · simp at h
        · next e hfe =>
          obtain ⟨hm, hp⟩ := findEntry_mem hfe
          exact ⟨e, hm, hp⟩
    · simp only [dir_rm_entry] at h
      split at h
      · simp at h
      · split at h
        · simp at h
        · simp only [Except.ok.injEq] at h
          exact h.symm

/-- table ids of the starting state satisfy the id bound trivially. -/
lemma base_refl (s : State) :
    ∀ nd ∈ s.inodes, nd.ino = 0 ∨ nd.ino = s.inodes.length + 1 ∨
      ∃ nd0 ∈ s.inodes, nd.ino = nd0.ino :=
  fun nd h => Or.inr (Or.inr ⟨nd, h, rfl⟩)

/-- the id bound after `alloc_inode` appends the fresh slot. -/
lemma base_append (s : State) :
    ∀ nd ∈ s.inodes ++ [{ zeroInode with ino := s.inodes.length + 1 }],
      nd.ino = 0 ∨ nd.ino = s.inodes.length + 1 ∨
        ∃ nd0 ∈ s.inodes, nd.ino = nd0.ino := by
  intro nd hnd
  rcases List.mem_append.mp hnd with hm | hm
  · exact base_refl s nd hm
  · simp only [List.mem_singleton] at hm
    rw [hm]
    exact Or.inr (Or.inl rfl)

/-- the id bound survives overwriting one slot with a bounded id. -/
lemma step_set {s : State} {l : List Inode} {i : Nat} {v : Inode}
    (hall : ∀ nd ∈ l, nd.ino = 0 ∨ nd.ino = s.inodes.length + 1 ∨
      ∃ nd0 ∈ s.inodes, nd.ino = nd0.ino)
    (hv : v.ino = 0 ∨ v.ino = s.inodes.length + 1 ∨
      ∃ nd0 ∈ s.inodes, v.ino = nd0.ino) :
    ∀ nd ∈ l.set i v, nd.ino = 0 ∨ nd.ino = s.inodes.length + 1 ∨
      ∃ nd0 ∈ s.inodes, nd.ino = nd0.ino := by
  intro nd hnd
  rcases List.mem_or_eq_of_mem_set hnd with hm | he
  · exact hall nd hm
  · rw [he]
    exact hv

/-- the id bound transfers to any indexed slot read. -/
lemma step_getD {s : State} {l : List Inode}
    (hall : ∀ nd ∈ l, nd.ino = 0 ∨ nd.ino = s.inodes.length + 1 ∨
      ∃ nd0 ∈ s.inodes, nd.ino = nd0.ino) (i : Nat) :
    (l.getD i zeroInode).ino = 0 ∨
      (l.getD i zeroInode).ino = s.inodes.length + 1 ∨
      ∃ nd0 ∈ s.inodes, (l.getD i zeroInode).ino = nd0.ino := by
  rcases getD_mem_or_zero l i with hm | hz
  · exact hall _ hm
  · rw [hz]
    exact Or.inl rfl

/-- every mutating call keeps the table length (never decrements) and
only ever introduces inode ids that are zero, the fresh id
`n_inodes + 1`, or ids already present. -/
lemma applyOp_len_inos (s : State) (op : Op) :
    s.inodes.length ≤ (applyOp s op).inodes.length ∧
    ∀ nd ∈ (applyOp s op).inodes,
      nd.ino = 0 ∨ nd.ino = s.inodes.length + 1 ∨
        ∃ nd0 ∈ s.inodes, nd.ino = nd0.ino := by
  cases op with
  | create p m u g t =>
    simp only [applyOp, fused_create]
    split
    · exact ⟨Nat.le_refl _, base_refl s⟩
    · split
      · exact ⟨Nat.le_refl _, base_refl s⟩
      · split
        · exact ⟨Nat.le_refl _, base_refl s⟩
        · split
          · exact ⟨Nat.le_refl _, base_refl s⟩
          · next s1 idx halloc =>
            obtain ⟨hs1, hidx⟩ := alloc_inode_some halloc
            subst hs1
            subst hidx
            split
            · next rc hadd =>
              refine ⟨?_, ?_⟩
              · simp only [free_inode, List.length_set, List.length_append,
                  List.length_singleton]
                exact Nat.le_succ _
              · simp only [free_inode]
                refine step_set (step_set (base_append s) ?_) (Or.inl rfl)
                exact step_getD (base_append s) _
            · next s4 hadd =>
              obtain ⟨i, hdi, hs4⟩ := dir_add_entry_ok hadd
              subst hs4
              refine ⟨?_, ?_⟩
              · simp only [setSlot, List.length_set, List.length_append,
                  List.length_singleton]
                exact Nat.le_succ _
              · simp only [setSlot]
                refine step_set (step_set (base_append s) ?_) ?_
                · exact step_getD (base_append s) _
                · refine step_getD (step_set (base_append s) ?_) _
                  exact step_getD (base_append s) _
  | mkdir p m u g t =>
    simp only [applyOp, fused_mkdir]
    split
    · exact ⟨Nat.le_refl _, base_refl s⟩
    · split
      · exact ⟨Nat.le_refl _, base_refl s⟩
      · split
        · exact ⟨Nat.le_refl _, base_refl s⟩
        · split
          · exact ⟨Nat.le_refl _, base_refl s⟩
          · split
            · exact ⟨Nat.le_refl _, base_refl s⟩
            · refine ⟨?_, ?_⟩
              · simp only [List.length_append, List.length_set,
                  List.length_singleton]
                exact Nat.le_succ _
              · intro nd hnd
                rcases List.mem_append.mp hnd with hm | hm
                · refine step_set (base_refl s) ?_ nd hm
                  exact step_getD (base_refl s) _
                · simp only [List.mem_singleton] at hm
                  rw [hm]
                  exact Or.inr (Or.inl rfl)
  | rmdir p t =>
    simp only [applyOp, fused_rmdir]
    split
    · exact ⟨Nat.le_refl _, base_refl s⟩
    · split
      · exact ⟨Nat.le_refl _, base_refl s⟩
      · split
        · exact ⟨Nat.le_refl _, base_refl s⟩
        · split
          · exact ⟨Nat.le_refl _, base_refl s⟩
          · split
            · exact ⟨Nat.le_refl _, base_refl s⟩
            · split
              · exact ⟨Nat.le_refl _, base_refl s⟩
              · refine ⟨?_, ?_⟩
                · simp only [List.length_set]
                  exact Nat.le_refl _
                · exact step_set
                    (step_set (base_refl s) (step_getD (base_refl s) _))
                    (Or.inl rfl)
  | rename a b t =>
    simp only [applyOp, fused_rename]
    split
    · exact ⟨Nat.le_refl _, base_refl s⟩
    · split
      · exact ⟨Nat.le_refl _, base_refl s⟩
      · split
        · next rc hrm =>
          exact ⟨Nat.le_refl _, base_refl s⟩
        · next s1 hrm =>
          obtain ⟨i, hdi, hwit, hs1⟩ := dir_rm_entry_ok hrm
          subst hs1
          split
          · next rc hadd =>
            refine ⟨?_, ?_⟩
            · simp only [setSlot, List.length_set]
              exact Nat.le_refl _
            · simp only [setSlot]
              refine step_set (step_set (base_refl s) ?_) ?_
              · exact step_getD (base_refl s) _
              · refine step_getD (step_set (base_refl s) ?_) _
                exact step_getD (base_refl s) _
          · next s3 hadd =>
            obtain ⟨j, hdj, hs3⟩ := dir_add_entry_ok hadd
            subst hs3
            refine ⟨?_, ?_⟩
            · simp only [setSlot, List.length_set]
              exact Nat.le_refl _
            · simp only [setSlot]
              refine step_set (step_set (step_set (base_refl s) ?_) ?_) ?_
              · exact step_getD (base_refl s) _
              · refine step_getD (step_set (base_refl s) ?_) _
                exact step_getD (base_refl s) _
              · refine step_getD (step_set (step_set (base_refl s) ?_) ?_) _
                · exact step_getD (base_refl s) _
                · refine step_getD (step_set (base_refl s) ?_) _
                  exact step_getD (base_refl s) _
  | write fh d off t =>
    simp only [applyOp, fused_write]
    split
    · exact ⟨Nat.le_refl _, base_refl s⟩
    · split
      · exact ⟨Nat.le_refl _, base_refl s⟩
      · refine ⟨?_, ?_⟩
        · simp only [List.length_set]
          exact Nat.le_refl _
        · exact step_set (base_refl s) (step_getD (base_refl s) _)

/-- C9: inode ids are never reused.  `alloc_inode` always hands out
`n_inodes + 1` and appends a slot; `free_inode` zeroes the slot without
shrinking the table; no operation shrinks the table; an id that is
absent and within the assigned range stays absent under every
operation; and once the table has reached `MAX_INODES` slots, `create`
and `mkdir` can never succeed again — with well-formed arguments they
fail `ENOMEM` resp. `ENOSPC` (the two errno images of
ResourceExhausted) even though freed slots may exist. -/
theorem inode_ids_never_reused :
    (∀ s : State, s.inodes.length < MAX_INODES →
      alloc_inode s = some ({ s with inodes :=
        s.inodes ++ [{ zeroInode with ino := s.inodes.length + 1 }] },
        s.inodes.length)) ∧
    (∀ s : State, MAX_INODES ≤ s.inodes.length → alloc_inode s = none) ∧
    (∀ s idx, (free_inode s idx).inodes.length = s.inodes.length ∧
      (idx < s.inodes.length → slot (free_inode s idx) idx = zeroInode)) ∧
    (∀ s op, s.inodes.length ≤ (applyOp s op).inodes.length) ∧
    (∀ s op f, f ≠ 0 → f ≤ s.inodes.length → lookupIdx s f = none →
      lookupIdx (applyOp s op) f = none) ∧
    (∀ s path m u g t h, MAX_INODES ≤ s.inodes.length →
      (fused_create s path m u g t).1 ≠ .ok h) ∧
    (∀ s path m u g t, MAX_INODES ≤ s.inodes.length →
      (fused_mkdir s path m u g t).1 ≠ .ok ()) ∧
    (∀ s path m u g t pidx, MAX_INODES ≤ s.inodes.length →
      path_to_inode s path = none →
      path_to_inode s (split_path path).1 = some pidx →
      S_ISDIR ((slot s pidx).mode) = true →
      (fused_create s path m u g t).1 = .error .ENOMEM ∧
      (fused_mkdir s path m u g t).1 = .error .ENOSPC) := by
  refine ⟨?_, ?_, ?_, ?_, ?_, ?_, ?_, ?_⟩
  · intro s h
    unfold alloc_inode
    rw [if_neg (Nat.not_le.mpr h)]
  · intro s h
    unfold alloc_inode
    rw [if_pos h]
  · intro s idx
    refine ⟨by simp [free_inode], fun hlt => ?_⟩
    simp only [free_inode, slot]
    exact getD_set_self _ hlt
  · intro s op
    exact (applyOp_len_inos s op).1
  · intro s op f hf hle hnone
    simp only [lookupIdx] at hnone ⊢
    rw [findIno_eq_none_iff] at hnone ⊢
    intro nd hnd
    rcases (applyOp_len_inos s op).2 nd hnd with h0 | hfresh | ⟨nd0, hm, he⟩
    · rw [h0]
      exact fun hc => hf hc.symm
    · rw [hfresh]
      intro hc
      rw [← hc] at hle
      exact Nat.not_succ_le_self s.inodes.length hle
    · rw [he]
      exact hnone nd0 hm
  · intro s path m u g t h hcap hok
    have halloc : alloc_inode s = none := by
      unfold alloc_inode
      rw [if_pos hcap]
    simp only [fused_create, halloc] at hok
    split at hok
    · simp at hok
    · split at hok
      · simp at hok
      · split at hok
        · simp at hok
        · simp at hok
  · intro s path m u g t hcap hok
    have hge : s.inodes.length ≥ MAX_INODES := hcap
    simp only [fused_mkdir, hge, if_true] at hok
    split at hok
    · simp at hok
    · split at hok
      · simp at hok
      · split at hok
        · simp at hok
        · simp at hok
  · intro s path m u g t pidx hcap hnone hp hd
    have halloc : alloc_inode s = none := by
      unfold alloc_inode
      rw [if_pos hcap]
    constructor
    · simp [fused_create, hnone, hp, hd, halloc]
    · simp [fused_mkdir, hnone, hp, hd, Nat.le_of_lt, hcap]

/-- witness for `inode_ids_never_reused`: allocation on a small state,
absence preservation of the freed id 2 of `W.stGap`, and the capacity
failures on the full table `W.stCap`. -/
theorem inode_ids_never_reused_witness :
    alloc_inode W.stGap = some ({ W.stGap with inodes := W.stGap.inodes ++
      [{ zeroInode with ino := 3 }] }, 2) ∧
    lookupIdx (applyOp W.stGap (.mkdir "/d".toList 493 0 0 7)) 2 = none ∧
    (fused_create W.stCap "/x".toList 420 0 0 7).1 = .error .ENOMEM ∧
    (fused_mkdir W.stCap "/x".toList 493 0 0 7).1 = .error .ENOSPC :=
  ⟨inode_ids_never_reused.1 W.stGap (by decide),
   inode_ids_never_reused.2.2.2.2.1 W.stGap (.mkdir "/d".toList 493 0 0 7) 2
     (by decide) (by decide) (by decide),
   (inode_ids_never_reused.2.2.2.2.2.2.2 W.stCap "/x".toList 420 0 0 7 0
     (by
       simp only [W.stCap, List.length_cons, List.length_replicate]
       decide) (by decide) (by decide) (by decide)).1,
   (inode_ids_never_reused.2.2.2.2.2.2.2 W.stCap "/x".toList 493 0 0 7 0
     (by
       simp only [W.stCap, List.length_cons, List.length_replicate]
       decide) (by decide) (by decide) (by decide)).2⟩

/-- removal keeps only original entries. -/
lemma removeEntry_subset {l : List Entry} {p : Entry → Bool} {e : Entry}
    (h : e ∈ removeEntry l p) : e ∈ l := by
  induction l with
  | nil => simpa [removeEntry] using h
  | cons a as ih =>
    simp only [removeEntry] at h
    by_cases hp : p a
    · rw [if_pos hp] at h
      exact List.mem_cons_of_mem a h
    · rw [if_neg hp] at h
      rcases List.mem_cons.mp h with he | hm
      · rw [he]
        exact List.mem_cons_self a as
      · exact List.mem_cons_of_mem a (ih hm)

/-- a successful non-empty walk ends at a slot reached through a
`lookup_inode` of some directory entry's child id. -/
lemma resolveFrom_some {s : State} {r j : Nat} {toks : List CStr}
    (h : resolveFrom s r toks = some j) :
    (toks = [] ∧ j = r) ∨
      ∃ nd ∈ s.inodes, ∃ e ∈ nd.children, findIno s.inodes e.2 = some j := by
  induction toks generalizing r with
  | nil =>
    simp only [resolveFrom, Option.some.injEq] at h
    exact Or.inl ⟨rfl, h.symm⟩
  | cons t1 rest ih =>
    simp only [resolveFrom] at h
    by_cases hd : S_ISDIR ((slot s r).mode)
    · rw [hd] at h
      simp only [Bool.not_true, Bool.false_eq_true, if_false] at h
      cases hfe : findEntry (slot s r).children (fun e => e.1 == t1) with
      | none => rw [hfe] at h; simp at h
      | some e =>
        rw [hfe] at h
        simp only at h
        cases hlk : lookupIdx s e.2 with
        | none => rw [hlk] at h; simp at h
        | some j1 =>
          rw [hlk] at h
          simp only at h
          right
          have hmem : slot s r ∈ s.inodes := by
            rcases getD_mem_or_zero s.inodes r with hm | hz
            · exact hm
            · exfalso
              have := (findEntry_mem hfe).1
              rw [show slot s r = zeroInode from hz] at this
              simp [zeroInode] at this
          rcases ih h with ⟨hnil, hjr⟩ | hrest
          · subst hnil
            simp only [resolveFrom, Option.some.injEq] at h
            refine ⟨slot s r, hmem, e, (findEntry_mem hfe).1, ?_⟩
            rw [hjr]
            exact hlk
          · exact hrest
    · rw [Bool.not_eq_true] at hd
      rw [hd] at h
      simp at h

/-- under the invariant the root is found at slot 0. -/
lemma rootInv_lookup {s : State} (h : rootInv s) : lookupIdx s 1 = some 0 := by
  obtain ⟨hlen, hino, _, _⟩ := h
  cases hl : s.inodes with
  | nil => rw [hl] at hlen; simp at hlen
  | cons a rest =>
    have hsl : slot s 0 = a := by simp [slot, hl]
    rw [hsl] at hino
    simp [lookupIdx, hl, findIno, hino]

/-- `splitSlash` never returns the empty list. -/
lemma splitSlash_ne_nil (cs : List Char) : splitSlash cs ≠ [] := by
  cases cs with
  | nil => simp [splitSlash]
  | cons c rest =>
    simp only [splitSlash]
    split <;> simp

/-- `splitSlash` distributes over a slash-separated concatenation. -/
lemma splitSlash_append (as bs : List Char) :
    splitSlash (as ++ '/' :: bs) = splitSlash as ++ splitSlash bs := by
  induction as with
  | nil => simp [splitSlash]
  | cons c as' ih =>
    show splitSlash (c :: (as' ++ '/' :: bs))
      = splitSlash (c :: as') ++ splitSlash bs
    simp only [splitSlash]
    by_cases hc : c == '/'
    · rw [if_pos hc, if_pos hc, ih]
      rfl
    · rw [if_neg hc, if_neg hc, ih]
      obtain ⟨x, xs, hxs⟩ := List.exists_cons_of_ne_nil (splitSlash_ne_nil as')
      rw [hxs]
      rfl

/-- `strtok` segments distribute over a slash-separated concatenation. -/
lemma segs_append_slash (as bs : List Char) :
    segs (as ++ '/' :: bs) = segs as ++ segs bs := by
  simp only [segs, splitSlash_append, List.filter_append]

/-- a string without slashes has no `strrchr` split. -/
lemma lastSplit_none {cs : List Char} (h : lastSplit cs = none) :
    '/' ∉ cs := by
  induction cs with
  | nil => simp
  | cons c rest ih =>
    simp only [lastSplit] at h
    cases hr : lastSplit rest with
    | some pn =>
      rw [hr] at h
      cases pn
      simp at h
    | none =>
      rw [hr] at h
      by_cases hc : c == '/'
      · rw [if_pos hc] at h
        simp at h
      · intro hmem
        rcases List.mem_cons.mp hmem with he | hm
        · apply hc
          rw [← he]
          rfl
        · exact ih hr hm

/-- inversion of a successful `strrchr`: the string splits at its last
slash, and the suffix is slash-free. -/
lemma lastSplit_some {cs pre name : List Char}
    (h : lastSplit cs = some (pre, name)) :
    cs = pre ++ '/' :: name ∧ '/' ∉ name := by
  induction cs generalizing pre name with
  | nil => simp [lastSplit] at h
  | cons c rest ih =>
    simp only [lastSplit] at h
    cases hr : lastSplit rest with
    | some pn =>
      rw [hr] at h
      cases pn with
      | mk p2 n2 =>
        simp only [Option.some.injEq, Prod.mk.injEq] at h
        obtain ⟨hpre, hname⟩ := h
        obtain ⟨hdec, hnotin⟩ := ih hr
        subst hname
        rw [← hpre]
        constructor
        · rw [hdec]
          rfl
        · exact hnotin
    | none =>
      rw [hr] at h
      by_cases hc : c == '/'
      · rw [if_pos hc] at h
        simp only [Option.some.injEq, Prod.mk.injEq] at h
        obtain ⟨hpre, hname⟩ := h
        subst hname
        rw [← hpre]
        constructor
        · simp only [List.nil_append]
          have : c = '/' := by simpa using hc
          rw [this]
        · exact lastSplit_none hr
      · rw [if_neg hc] at h
        simp at h

/-- a path with no `strtok` segments has a parent path with none
either (the split leaf of such a path is empty or the parent is `/`). -/
lemma tokenize_nil_parent {path : CStr} (h : tokenize path = []) :
    tokenize ((split_path path).1) = [] := by
  unfold split_path
  cases hl : lastSplit path with
  | none => simp [tokenize, segs, splitSlash]
  | some pn =>
    cases pn with
    | mk pre name =>
      cases pre with
      | nil => simp [tokenize, segs, splitSlash]
      | cons c pre' =>
        simp only
        obtain ⟨hdec, _⟩ := lastSplit_some hl
        simp only [tokenize] at h ⊢
        rw [hdec] at h
        simp only [List.cons_append, List.drop_succ_cons, List.drop_zero] at h
        rw [segs_append_slash] at h
        rcases List.append_eq_nil.mp h with ⟨h1, _⟩
        simpa using h1

/-- a children/mtime/ctime update keeps every slot's inode id. -/
lemma set_chmc_ino (l : List Inode) (i : Nat) (ch : List Entry)
    (mt ct : Nat) (j : Nat) :
    ((l.set i ({ l.getD i zeroInode with
        children := ch, mtime := mt, ctime := ct })).getD j zeroInode).ino
      = (l.getD j zeroInode).ino := by
  rw [getD_set_full]
  split
  · next hc =>
    rw [hc.1]
  · rfl

/-- a children/mtime/ctime update keeps every slot's mode. -/
lemma set_chmc_mode (l : List Inode) (i : Nat) (ch : List Entry)
    (mt ct : Nat) (j : Nat) :
    ((l.set i ({ l.getD i zeroInode with
        children := ch, mtime := mt, ctime := ct })).getD j zeroInode).mode
      = (l.getD j zeroInode).mode := by
  rw [getD_set_full]
  split
  · next hc =>
    rw [hc.1]
  · rfl

/-- an atime-only update keeps every slot's inode id and mode. -/
lemma set_atime_ino_mode (l : List Inode) (i : Nat) (a : Nat) (j : Nat) :
    (((l.set i ({ l.getD i zeroInode with atime := a })).getD j zeroInode).ino
        = (l.getD j zeroInode).ino) ∧
    (((l.set i ({ l.getD i zeroInode with atime := a })).getD j zeroInode).mode
        = (l.getD j zeroInode).mode) := by
  rw [getD_set_full]
  by_cases hc : j = i ∧ i < l.length
  · rw [if_pos hc, hc.1]
    exact ⟨rfl, rfl⟩
  · rw [if_neg hc]
    exact ⟨rfl, rfl⟩

/-- an atime/mtime update keeps every slot's inode id and mode. -/
lemma set_am_ino_mode (l : List Inode) (i : Nat) (a mt : Nat) (j : Nat) :
    (((l.set i ({ l.getD i zeroInode with atime := a, mtime := mt })).getD
        j zeroInode).ino = (l.getD j zeroInode).ino) ∧
    (((l.set i ({ l.getD i zeroInode with atime := a, mtime := mt })).getD
        j zeroInode).mode = (l.getD j zeroInode).mode) := by
  rw [getD_set_full]
  by_cases hc : j = i ∧ i < l.length
  · rw [if_pos hc, hc.1]
    exact ⟨rfl, rfl⟩
  · rw [if_neg hc]
    exact ⟨rfl, rfl⟩

/-- a size/mtime/ctime update keeps every slot's inode id and mode. -/
lemma set_smc_ino_mode (l : List Inode) (i : Nat) (z mt ct : Nat) (j : Nat) :
    (((l.set i ({ l.getD i zeroInode with
        size := z, mtime := mt, ctime := ct })).getD j zeroInode).ino
        = (l.getD j zeroInode).ino) ∧
    (((l.set i ({ l.getD i zeroInode with
        size := z, mtime := mt, ctime := ct })).getD j zeroInode).mode
        = (l.getD j zeroInode).mode) := by
  rw [getD_set_full]
  by_cases hc : j = i ∧ i < l.length
  · rw [if_pos hc, hc.1]
    exact ⟨rfl, rfl⟩
  · rw [if_neg hc]
    exact ⟨rfl, rfl⟩

/-- the no-entry-targets-root property survives a slot overwrite whose
new children satisfy it. -/
lemma noRoot_set {l : List Inode} {i : Nat} {v : Inode}
    (hall : ∀ nd ∈ l, ∀ e ∈ nd.children, e.2 ≠ 1)
    (hv : ∀ e ∈ v.children, e.2 ≠ 1) :
    ∀ nd ∈ l.set i v, ∀ e ∈ nd.children, e.2 ≠ 1 := by
  intro nd hnd
  rcases List.mem_or_eq_of_mem_set hnd with hm | he
  · exact hall nd hm
  · rw [he]
    exact hv

/-- the no-entry-targets-root property holds for any slot read. -/
lemma noRoot_getD {l : List Inode}
    (hall : ∀ nd ∈ l, ∀ e ∈ nd.children, e.2 ≠ 1) (i : Nat) :
    ∀ e ∈ (l.getD i zeroInode).children, e.2 ≠ 1 := by
  rcases getD_mem_or_zero l i with hm | hz
  · exact hall _ hm
  · rw [hz]
    intro e he
    simp [zeroInode] at he

/-- `fused_create` preserves the root invariant. -/
lemma rootInv_create {s : State} (hinv : rootInv s) (p : CStr)
    (m u g t : Nat) : rootInv (fused_create s p m u g t).2 := by
  obtain ⟨hlen, hino, hdirm, hnr⟩ := hinv
  have h0ne : (0 : Nat) ≠ s.inodes.length := fun hc =>
    Nat.lt_irrefl 0 (hc ▸ hlen)
  simp only [fused_create]
  split
  · exact ⟨hlen, hino, hdirm, hnr⟩
  · split
    · exact ⟨hlen, hino, hdirm, hnr⟩
    · split
      · exact ⟨hlen, hino, hdirm, hnr⟩
      · split
        · exact ⟨hlen, hino, hdirm, hnr⟩
        · next s1 idx halloc =>
          obtain ⟨hs1, hidx⟩ := alloc_inode_some halloc
          subst hs1
          subst hidx
          have happ : ∀ nd ∈ s.inodes ++
              [{ zeroInode with ino := s.inodes.length + 1 }],
              ∀ e ∈ nd.children, e.2 ≠ 1 := by
            intro nd hnd
            rcases List.mem_append.mp hnd with hm | hm
            · exact hnr nd hm
            · simp only [List.mem_singleton] at hm
              rw [hm]
              intro e he
              simp [zeroInode] at he
          have happ0 : ∀ (v : Inode) (j : Nat), j < s.inodes.length →
              ((s.inodes ++ [{ zeroInode with ino := s.inodes.length + 1 }]
                ).set s.inodes.length v).getD j zeroInode
                = s.inodes.getD j zeroInode := by
            intro v j hj
            rw [getD_set_full]
            rw [if_neg (by
              intro hc
              rw [hc.1] at hj
              exact Nat.lt_irrefl _ hj)]
            exact List.getD_append _ _ _ _ hj
          split
          · next rc hadd =>
            refine ⟨?_, ?_, ?_, ?_⟩
            · simp only [free_inode, List.length_set, List.length_append,
                List.length_singleton]
              exact Nat.lt_of_lt_of_le hlen (Nat.le_succ _)
            · simp only [free_inode, slot]
              rw [getD_set_full, if_neg (by
                intro hc
                exact h0ne hc.1)]
              rw [happ0 _ 0 hlen]
              exact hino
            · simp only [free_inode, slot]
              rw [getD_set_full, if_neg (by
                intro hc
                exact h0ne hc.1)]
              rw [happ0 _ 0 hlen]
              exact hdirm
            · simp only [free_inode]
              refine noRoot_set (noRoot_set happ ?_) ?_
              · exact noRoot_getD happ _
              · intro e he
                simp [zeroInode] at he
          · next s4 hadd =>
            obtain ⟨i, hdi, hs4⟩ := dir_add_entry_ok hadd
            subst hs4
            have hfresh : ((s.inodes ++
                [{ zeroInode with ino := s.inodes.length + 1 }]).getD
                  s.inodes.length zeroInode).ino = s.inodes.length + 1 := by
              rw [getD_append_len]
            refine ⟨?_, ?_, ?_, ?_⟩
            · simp only [setSlot, List.length_set, List.length_append,
                List.length_singleton]
              exact Nat.lt_of_lt_of_le hlen (Nat.le_succ _)
            · simp only [setSlot, slot]
              rw [set_chmc_ino]
              rw [happ0 _ 0 hlen]
              exact hino
            · simp only [setSlot, slot]
              rw [set_chmc_mode]
              rw [happ0 _ 0 hlen]
              exact hdirm
            · simp only [setSlot]
              have hbase : ∀ nd ∈ (s.inodes ++
                  [{ zeroInode with ino := s.inodes.length + 1 }]).set
                    s.inodes.length
                    ({ (s.inodes ++
                        [{ zeroInode with ino := s.inodes.length + 1 }]).getD
                          s.inodes.length zeroInode with
                      mode := S_IFREG ||| (m &&& 511), uid := u, gid := g,
                      size := 0, atime := t, mtime := t, ctime := t }),
                  ∀ e ∈ nd.children, e.2 ≠ 1 := by
                refine noRoot_set happ ?_
                exact noRoot_getD happ _
              refine noRoot_set ?_ ?_
              · exact hbase
              · intro e he
                rcases List.mem_append.mp he with hm | hm
                · exact noRoot_getD hbase i e hm
                · simp only [List.mem_singleton] at hm
                  rw [hm]
                  dsimp only [slot]
                  rw [getD_append_len]
                  intro hc
                  have hc' : s.inodes.length + 1 = 1 := hc
                  omega

/-- `fused_mkdir` preserves the root invariant. -/
lemma rootInv_mkdir {s : State} (hinv : rootInv s) (p : CStr)
    (m u g t : Nat) : rootInv (fused_mkdir s p m u g t).2 := by
  obtain ⟨hlen, hino, hdirm, hnr⟩ := hinv
  simp only [fused_mkdir]
  split
  · exact ⟨hlen, hino, hdirm, hnr⟩
  · split
    · exact ⟨hlen, hino, hdirm, hnr⟩
    · next pidx hpp =>
      split
      · exact ⟨hlen, hino, hdirm, hnr⟩
      · split
        · exact ⟨hlen, hino, hdirm, hnr⟩
        · split
          · exact ⟨hlen, hino, hdirm, hnr⟩
          · have hlt0 : 0 < (s.inodes.set pidx ({ slot s pidx with
                children := (slot s pidx).children ++
                  [((split_path p).2, s.inodes.length + 1)],
                mtime := t, ctime := t })).length := by
              simpa [List.length_set] using hlen
            refine ⟨?_, ?_, ?_, ?_⟩
            · simp only [List.length_append, List.length_set,
                List.length_singleton]
              exact Nat.lt_of_lt_of_le hlen (Nat.le_succ _)
            · simp only [slot]
              rw [List.getD_append _ _ _ _ (by
                simpa [List.length_set, slot] using hlen)]
              rw [set_chmc_ino]
              exact hino
            · simp only [slot]
              rw [List.getD_append _ _ _ _ (by
                simpa [List.length_set, slot] using hlen)]
              rw [set_chmc_mode]
              exact hdirm
            · intro nd hnd
              rcases List.mem_append.mp hnd with hm | hm
              · refine noRoot_set hnr ?_ nd hm
                intro e he
                rcases List.mem_append.mp he with hm2 | hm2
                · exact noRoot_getD hnr pidx e hm2
                · simp only [List.mem_singleton] at hm2
                  rw [hm2]
                  intro hc
                  have hc' : s.inodes.length + 1 = 1 := hc
                  omega
              · simp only [List.mem_singleton] at hm
                rw [hm]
                intro e he
                simp at he

/-- `fused_write` preserves the root invariant. -/
lemma rootInv_write {s : State} (hinv : rootInv s) (fh : Nat)
    (data : List Nat) (off t : Nat) :
    rootInv (fused_write s fh data off t).2 := by
  obtain ⟨hlen, hino, hdirm, hnr⟩ := hinv
  simp only [fused_write]
  split
  · exact ⟨hlen, hino, hdirm, hnr⟩
  · split
    · exact ⟨hlen, hino, hdirm, hnr⟩
    · refine ⟨?_, ?_, ?_, ?_⟩
      · simpa [List.length_set] using hlen
      · simp only [slot]
        rw [(set_smc_ino_mode _ _ _ _ _ _).1]
        exact hino
      · simp only [slot]
        rw [(set_smc_ino_mode _ _ _ _ _ _).2]
        exact hdirm
      · refine noRoot_set hnr ?_
        exact noRoot_getD hnr _

/-- `fused_rename` preserves the root invariant. -/
lemma rootInv_rename {s : State} (hinv : rootInv s) (a b : CStr)
    (t : Nat) : rootInv (fused_rename s a b t).2 := by
  obtain ⟨hlen, hino, hdirm, hnr⟩ := hinv
  simp only [fused_rename]
  split
  · exact ⟨hlen, hino, hdirm, hnr⟩
  · next fidx hsrc =>
    split
    · exact ⟨hlen, hino, hdirm, hnr⟩
    · split
      · exact ⟨hlen, hino, hdirm, hnr⟩
      · next s1 hrm =>
        obtain ⟨i, hdi, ⟨e, hemem, hepred⟩, hs1⟩ := dir_rm_entry_ok hrm
        subst hs1
        have hmoved : (slot s fidx).ino ≠ 1 := by
          have he2 : e.2 = (slot s fidx).ino := by
            have h2 := (Bool.and_eq_true _ _).mp hepred
            simpa using h2.2
          rcases getD_mem_or_zero s.inodes i with hm | hz
          · rw [← he2]
            exact hnr _ hm e hemem
          · exfalso
            have : e ∈ (zeroInode).children := by
              rw [← hz]
              exact hemem
            simp [zeroInode] at this
        have hchain1 : ∀ nd ∈ (setSlot s i ({ slot s i with
            children := removeEntry (slot s i).children
              (fun e2 => e2.1 == (split_path a).2 &&
                e2.2 == (slot s fidx).ino),
            mtime := t, ctime := t })).inodes,
            ∀ e2 ∈ nd.children, e2.2 ≠ 1 := by
          simp only [setSlot]
          refine noRoot_set hnr ?_
          intro e2 he2
          exact noRoot_getD hnr i e2 (removeEntry_subset he2)
        split
        · next rc hadd =>
          refine ⟨?_, ?_, ?_, ?_⟩
          · simpa [setSlot, List.length_set] using hlen
          · simp only [setSlot, slot]
            rw [(set_am_ino_mode _ _ _ _ _).1, set_chmc_ino]
            exact hino
          · simp only [setSlot, slot]
            rw [(set_am_ino_mode _ _ _ _ _).2, set_chmc_mode]
            exact hdirm
          · simp only [setSlot]
            refine noRoot_set ?_ ?_
            · simpa [setSlot] using hchain1
            · refine noRoot_getD ?_ _
              simpa [setSlot] using hchain1
        · next s3 hadd =>
          obtain ⟨j, hdj, hs3⟩ := dir_add_entry_ok hadd
          subst hs3
          refine ⟨?_, ?_, ?_, ?_⟩
          · simpa [setSlot, List.length_set] using hlen
          · simp only [setSlot, slot]
            rw [set_chmc_ino, (set_am_ino_mode _ _ _ _ _).1, set_chmc_ino]
            exact hino
          · simp only [setSlot, slot]
            rw [set_chmc_mode, (set_am_ino_mode _ _ _ _ _).2, set_chmc_mode]
            exact hdirm
          · simp only [setSlot]
            refine noRoot_set ?_ ?_
            · refine noRoot_set ?_ ?_
              · simpa [setSlot] using hchain1
              · refine noRoot_getD ?_ _
                simpa [setSlot] using hchain1
            · intro e2 he2
              rcases List.mem_append.mp he2 with hm | hm
              · refine noRoot_getD ?_ j e2 hm
                refine noRoot_set ?_ ?_
                · simpa [setSlot] using hchain1
                · refine noRoot_getD ?_ _
                  simpa [setSlot] using hchain1
              · simp only [List.mem_singleton] at hm
                rw [hm]
                exact hmoved

/-- `fused_rmdir` preserves the root invariant: a non-root path with
tokens reaches its slot through a directory entry, which never targets
id 1, so the zeroed slot is not slot 0; an all-slash path resolves to
the root itself, whose child list must be empty to pass the NotEmpty
check, so the parent scan fails before any mutation. -/
lemma rootInv_rmdir {s : State} (hinv : rootInv s) (p : CStr) (t : Nat) :
    rootInv (fused_rmdir s p t).2 := by
  obtain ⟨hlen, hino, hdirm, hnr⟩ := hinv
  have hr0 : lookupIdx s 1 = some 0 := rootInv_lookup ⟨hlen, hino, hdirm, hnr⟩
  simp only [fused_rmdir]
  split
  · exact ⟨hlen, hino, hdirm, hnr⟩
  · next hslash =>
    split
    · exact ⟨hlen, hino, hdirm, hnr⟩
    · next ridx hres =>
      split
      · exact ⟨hlen, hino, hdirm, hnr⟩
      · next hdirb =>
        split
        · exact ⟨hlen, hino, hdirm, hnr⟩
        · next hch =>
          split
          · exact ⟨hlen, hino, hdirm, hnr⟩
          · next pidx hpp =>
            split
            · exact ⟨hlen, hino, hdirm, hnr⟩
            · next e hfe =>
              have hslash' : (p == ['/']) = false := by
                simp only [Bool.not_eq_true] at hslash
                exact hslash
              simp only [path_to_inode, hslash', Bool.false_eq_true,
                if_false, hr0] at hres
              have hridx0 : ridx ≠ 0 := by
                cases htoks : tokenize p with
                | nil =>
                  exfalso
                  rw [htoks] at hres
                  simp only [resolveFrom, Option.some.injEq] at hres
                  have hch0 : (slot s ridx).children = [] :=
                    List.eq_nil_of_length_eq_zero (Nat.eq_zero_of_not_pos hch)
                  have htokpp := tokenize_nil_parent htoks
                  have hpidx0 : pidx = 0 := by
                    by_cases hpps : ((split_path p).1 == ['/']) = true
                    · simp only [path_to_inode, hpps, if_true, hr0,
                        Option.some.injEq] at hpp
                      exact hpp.symm
                    · have hpps' : ((split_path p).1 == ['/']) = false := by
                        simp only [Bool.not_eq_true] at hpps
                        exact hpps
                      simp only [path_to_inode, hpps', Bool.false_eq_true,
                        if_false, hr0, htokpp, resolveFrom,
                        Option.some.injEq] at hpp
                      exact hpp.symm
                  rw [← hres] at hch0
                  rw [hpidx0, hch0] at hfe
                  simp [findEntry] at hfe
                | cons t1 rest =>
                  rw [htoks] at hres
                  rcases resolveFrom_some hres with ⟨habs, _⟩ |
                    ⟨nd, hmem, e2, hemem, hfi⟩
                  · exact absurd habs (by simp)
                  · have hioeq := (findIno_some hfi).2
                    have hne1 : e2.2 ≠ 1 := hnr nd hmem e2 hemem
                    have hino' : (s.inodes.getD 0 zeroInode).ino = 1 := hino
                    intro hc
                    rw [hc] at hioeq
                    apply hne1
                    rw [← hioeq]
                    exact hino'
              refine ⟨?_, ?_, ?_, ?_⟩
              · simpa [List.length_set] using hlen
              · simp only [slot]
                rw [getD_set_full, if_neg (by
                  intro hc
                  exact hridx0 hc.1.symm)]
                rw [set_chmc_ino]
                exact hino
              · simp only [slot]
                rw [getD_set_full, if_neg (by
                  intro hc
                  exact hridx0 hc.1.symm)]
                rw [set_chmc_mode]
                exact hdirm
              · refine noRoot_set (noRoot_set hnr ?_) ?_
                · intro e2 he2
                  exact noRoot_getD hnr pidx e2 (removeEntry_subset he2)
                · intro e2 he2
                  simp [zeroInode] at he2

/-- every mutating call preserves the root invariant. -/
lemma rootInv_applyOp {s : State} (hinv : rootInv s) (op : Op) :
    rootInv (applyOp s op) := by
  cases op with
  | create p m u g t => exact rootInv_create hinv p m u g t
  | mkdir p m u g t => exact rootInv_mkdir hinv p m u g t
  | rmdir p t => exact rootInv_rmdir hinv p t
  | rename a b t => exact rootInv_rename hinv a b t
  | write fh d off t => exact rootInv_write hinv fh d off t

/-- the state built by `fused_init` satisfies the root invariant. -/
lemma rootInv_init (uid gid t : Nat) : rootInv (initState uid gid t) := by
  refine ⟨by simp [initState], rfl, ?_, ?_⟩
  · show S_ISDIR (S_IFDIR ||| 493) = true
    decide
  intro nd hnd e he
  simp only [initState, List.mem_singleton] at hnd
  rw [hnd] at he
  simp at he

/-- C8: in every state reachable from the initial state by any
sequence of `create`/`mkdir`/`rmdir`/`rename`/`write` calls, the root
inode still sits in slot 0 with id 1 and directory mode — no operation
deletes it or changes its kind — and the path `"/"` still resolves to
it. -/
theorem root_inode_preserved (uid gid t0 : Nat) (ops : List Op) :
    (slot (ops.foldl applyOp (initState uid gid t0)) 0).ino = 1 ∧
    S_ISDIR ((slot (ops.foldl applyOp (initState uid gid t0)) 0).mode) = true ∧
    path_to_inode (ops.foldl applyOp (initState uid gid t0)) ['/'] = some 0 := by
  have hfold : ∀ s : State, rootInv s → rootInv (ops.foldl applyOp s) := by
    induction ops with
    | nil => exact fun s h => h
    | cons op rest ih =>
      intro s h
      exact ih (applyOp s op) (rootInv_applyOp h op)
  have hinv := hfold (initState uid gid t0) (rootInv_init uid gid t0)
  refine ⟨hinv.2.1, hinv.2.2.1, ?_⟩
  have := rootInv_lookup hinv
  simpa [path_to_inode] using this

/-- a scan misses an id absent from every slot (index form). -/
lemma findIno_none_of_getD {l : List Inode} {k : Nat}
    (h : ∀ j, j < l.length → (l.getD j zeroInode).ino ≠ k) :
    findIno l k = none := by
  induction l with
  | nil => rfl
  | cons a as ih =>
    have h0 : a.ino ≠ k := by
      have := h 0 (Nat.succ_pos _)
      simpa using this
    simp only [findIno]
    rw [if_neg (by simpa using h0)]
    rw [Option.map_eq_none']
    refine ih ?_
    intro j hj
    have := h (j + 1) (Nat.succ_lt_succ hj)
    simpa using this

/-- two tables of equal length whose slots agree on carrying the id
`k` produce the same scan result for `k`. -/
lemma findIno_iff_congr {l₁ l₂ : List Inode} (hlen : l₁.length = l₂.length)
    (k : Nat)
    (h : ∀ i, i < l₁.length →
      ((l₁.getD i zeroInode).ino = k ↔ (l₂.getD i zeroInode).ino = k)) :
    findIno l₁ k = findIno l₂ k := by
  induction l₁ generalizing l₂ with
  | nil =>
    cases l₂ with
    | nil => rfl
    | cons b bs => simp at hlen
  | cons a as ih =>
    cases l₂ with
    | nil => simp at hlen
    | cons b bs =>
      have h0 := h 0 (Nat.succ_pos _)
      simp only [List.getD_cons_zero] at h0
      by_cases hk : a.ino = k
      · have hbk : b.ino = k := h0.mp hk
        simp [findIno, hk, hbk]
      · have hbk : ¬ b.ino = k := fun hc => hk (h0.mpr hc)
        simp only [findIno]
        rw [if_neg (by simpa using hk), if_neg (by simpa using hbk)]
        rw [ih (by simpa using hlen) (fun i hi => by
          have := h (i + 1) (Nat.succ_lt_succ hi)
          simpa using this)]

/-- a resolved slot index is within the table. -/
lemma resolve_lt {s : State} {p : CStr} {i : Nat}
    (h : path_to_inode s p = some i) : i < s.inodes.length := by
  simp only [path_to_inode] at h
  split at h
  · exact (findIno_some h).1
  · cases hr : lookupIdx s 1 with
    | none => rw [hr] at h; simp at h
    | some r =>
      rw [hr] at h
      simp only at h
      rcases resolveFrom_some h with ⟨_, hir⟩ | ⟨nd, _, e, _, hfi⟩
      · rw [hir]
        exact (findIno_some hr).1
      · exact (findIno_some hfi).1

/-- no entry of an absent name is found. -/
lemma findEntry_name_not_mem {l : List Entry} {dn : CStr}
    (h : dn ∉ l.map Prod.fst) :
    findEntry l (fun e => e.1 == dn) = none := by
  induction l with
  | nil => rfl
  | cons a as ih =>
    simp only [List.map_cons, List.mem_cons, not_or] at h
    simp only [findEntry]
    rw [if_neg (by
      intro hc
      have hadn : a.1 = dn := by simpa using hc
      exact h.1 hadn.symm)]
    exact ih h.2

/-- with per-directory unique names, removing the first entry of a
name leaves no entry of that name. -/
lemma findEntry_removeEntry_name {l : List Entry} {dn : CStr}
    (hnd : (l.map Prod.fst).Nodup) :
    findEntry (removeEntry l (fun e => e.1 == dn)) (fun e => e.1 == dn)
      = none := by
  induction l with
  | nil => rfl
  | cons a as ih =>
    simp only [List.map_cons, List.nodup_cons] at hnd
    by_cases ha : (a.1 == dn) = true
    · simp only [removeEntry, if_pos ha]
      refine findEntry_name_not_mem ?_
      have : a.1 = dn := by simpa using ha
      rw [← this]
      exact hnd.1
    · simp only [removeEntry, if_neg ha, findEntry, if_neg ha]
      exact ih hnd.2

/-- removing entries that cannot match the searched predicate does not
change the search. -/
lemma findEntry_removeEntry_disjoint {l : List Entry}
    {p q : Entry → Bool} (h : ∀ e, p e = true → q e = false) :
    findEntry (removeEntry l p) q = findEntry l q := by
  induction l with
  | nil => rfl
  | cons a as ih =>
    by_cases ha : p a = true
    · simp only [removeEntry, if_pos ha, findEntry, h a ha,
        Bool.false_eq_true, if_false]
    · simp only [removeEntry, if_neg ha, findEntry]
      by_cases hq : q a = true
      · rw [if_pos hq, if_pos hq]
      · rw [if_neg hq, if_neg hq]
        exact ih

/-- simulation after a successful `rmdir` mutation: any path walk that
succeeds in the post-state (parent entry removed, target slot zeroed)
already succeeded in the pre-state with the same result, and that
result is not the zeroed slot. -/
lemma resolve_sim {s : State} {pidx ridx : Nat} {dn : CStr} {mt ct : Nat}
    (post : State)
    (hpost : post.inodes = (s.inodes.set pidx
      ({ slot s pidx with
        children := removeEntry (slot s pidx).children
          (fun e => e.1 == dn),
        mtime := mt, ctime := ct })).set ridx zeroInode)
    (hplen : pidx < s.inodes.length) (hrlen : ridx < s.inodes.length)
    (hpr : pidx ≠ ridx)
    (hW1 : ∀ nd ∈ s.inodes, ∀ e ∈ nd.children, e.2 ≠ 0)
    (hW5 : ∀ nd ∈ s.inodes, (nd.children.map Prod.fst).Nodup)
    (hlkR : lookupIdx post ((slot s ridx).ino) = none)
    (hlk : ∀ k, k ≠ 0 → k ≠ (slot s ridx).ino →
      lookupIdx post k = lookupIdx s k) :
    ∀ (toks : List CStr) (r j : Nat), r ≠ ridx →
      resolveFrom post r toks = some j →
      resolveFrom s r toks = some j ∧ j ≠ ridx := by
  intro toks
  induction toks with
  | nil =>
    intro r j hr h
    simp only [resolveFrom, Option.some.injEq] at h
    subst h
    exact ⟨rfl, hr⟩
  | cons tk rest ih =>
    intro r j hr h
    have hslotr : slot post r = if r = pidx then
        ({ slot s pidx with
          children := removeEntry (slot s pidx).children
            (fun e => e.1 == dn),
          mtime := mt, ctime := ct }) else slot s r := by
      simp only [slot, hpost]
      rw [getD_set_full, if_neg (by
        intro hc
        exact hr hc.1)]
      rw [getD_set_full]
      by_cases hrp : r = pidx
      · rw [if_pos ⟨hrp, hplen⟩, if_pos hrp]
      · rw [if_neg (fun hc => hrp hc.1), if_neg hrp]
    simp only [resolveFrom] at h
    by_cases hrp : r = pidx
    · subst hrp
      rw [hslotr, if_pos rfl] at h
      dsimp only at h
      by_cases hd : S_ISDIR ((slot s r).mode) = true
      · rw [hd] at h
        simp only [Bool.not_true, Bool.false_eq_true, if_false] at h
        by_cases htkdn : tk = dn
        · exfalso
          subst htkdn
          have hnodup : ((slot s r).children.map Prod.fst).Nodup := by
            rcases getD_mem_or_zero s.inodes r with hm | hz
            · exact hW5 _ hm
            · rw [show slot s r = zeroInode from hz]
              simp [zeroInode]
          rw [findEntry_removeEntry_name hnodup] at h
          simp at h
        · rw [findEntry_removeEntry_disjoint (by
            intro e2 hpe
            have he2 : e2.1 = dn := by simpa using hpe
            simp only [beq_eq_false_iff_ne, ne_eq]
            rw [he2]
            exact fun hc => htkdn hc.symm)] at h
          cases hfe : findEntry ((slot s r).children) (fun e => e.1 == tk) with
          | none =>
            rw [hfe] at h
            simp at h
          | some e =>
            rw [hfe] at h
            simp only at h
            have he2ne0 : e.2 ≠ 0 := by
              rcases getD_mem_or_zero s.inodes r with hm | hz
              · exact hW1 _ hm e (findEntry_mem hfe).1
              · exfalso
                have hee := (findEntry_mem hfe).1
                rw [show slot s r = zeroInode from hz] at hee
                simp [zeroInode] at hee
            have he2neR : e.2 ≠ (slot s ridx).ino := by
              intro hc
              rw [hc, hlkR] at h
              simp at h
            rw [hlk e.2 he2ne0 he2neR] at h
            cases hlks : lookupIdx s e.2 with
            | none =>
              rw [hlks] at h
              simp at h
            | some j1 =>
              rw [hlks] at h
              simp only at h
              have hj1 : j1 ≠ ridx := by
                intro hc
                have hj1i := (findIno_some hlks).2
                rw [hc] at hj1i
                exact he2neR hj1i.symm
              obtain ⟨hpre, hjne⟩ := ih j1 j hj1 h
              refine ⟨?_, hjne⟩
              simp only [resolveFrom, hd, hfe, hlks, Bool.not_true,
                Bool.false_eq_true, if_false]
              exact hpre
      · exfalso
        rw [Bool.not_eq_true] at hd
        rw [hd] at h
        simp at h
    · rw [hslotr, if_neg hrp] at h
      by_cases hd : S_ISDIR ((slot s r).mode) = true
      · rw [hd] at h
        simp only [Bool.not_true, Bool.false_eq_true, if_false] at h
        cases hfe : findEntry ((slot s r).children) (fun e => e.1 == tk) with
        | none =>
          rw [hfe] at h
          simp at h
        | some e =>
          rw [hfe] at h
          simp only at h
          have he2ne0 : e.2 ≠ 0 := by
            rcases getD_mem_or_zero s.inodes r with hm | hz
            · exact hW1 _ hm e (findEntry_mem hfe).1
            · exfalso
              have hee := (findEntry_mem hfe).1
              rw [show slot s r = zeroInode from hz] at hee
              simp [zeroInode] at hee
          have he2neR : e.2 ≠ (slot s ridx).ino := by
            intro hc
            rw [hc, hlkR] at h
            simp at h
          rw [hlk e.2 he2ne0 he2neR] at h
          cases hlks : lookupIdx s e.2 with
          | none =>
            rw [hlks] at h
            simp at h
          | some j1 =>
            rw [hlks] at h
            simp only at h
            have hj1 : j1 ≠ ridx := by
              intro hc
              have hj1i := (findIno_some hlks).2
              rw [hc] at hj1i
              exact he2neR hj1i.symm
            obtain ⟨hpre, hjne⟩ := ih j1 j hj1 h
            refine ⟨?_, hjne⟩
            simp only [resolveFrom, hd, hfe, hlks, Bool.not_true,
              Bool.false_eq_true, if_false]
            exact hpre
      · exfalso
        rw [Bool.not_eq_true] at hd
        rw [hd] at h
        simp at h

/-- C7: the `rmdir` contract, under the spec's namespace invariants
(entries carry nonzero child ids and unique names per directory, and
live inode ids are unique): `EBUSY` on the root, `ENOENT` on an
unresolved path, `ENOTDIR` on a file, `ENOTEMPTY` whenever the
directory has at least one child; and removal happens only for a
directory with zero children, after which its parent entry is gone,
its id no longer looks up, and the path no longer resolves. -/
theorem rmdir_contract (s : State) (p : CStr) (t : Nat)
    (hW1 : ∀ nd ∈ s.inodes, ∀ e ∈ nd.children, e.2 ≠ 0)
    (hW5 : ∀ nd ∈ s.inodes, (nd.children.map Prod.fst).Nodup)
    (hW4 : ∀ i j, i < s.inodes.length → j < s.inodes.length →
      (slot s i).ino = (slot s j).ino → (slot s i).ino ≠ 0 → i = j) :
    (p = ['/'] → fused_rmdir s p t = (.error .EBUSY, s)) ∧
    (p ≠ ['/'] → path_to_inode s p = none →
      fused_rmdir s p t = (.error .ENOENT, s)) ∧
    (∀ ridx, p ≠ ['/'] → path_to_inode s p = some ridx →
      S_ISDIR ((slot s ridx).mode) = false →
      fused_rmdir s p t = (.error .ENOTDIR, s)) ∧
    (∀ ridx, p ≠ ['/'] → path_to_inode s p = some ridx →
      S_ISDIR ((slot s ridx).mode) = true →
      (slot s ridx).children ≠ [] →
      fused_rmdir s p t = (.error .ENOTEMPTY, s)) ∧
    (∀ ridx pidx, path_to_inode s p = some ridx →
      path_to_inode s (split_path p).1 = some pidx →
      (fused_rmdir s p t).1 = .ok () →
      (slot s ridx).children = [] ∧
      findEntry ((slot (fused_rmdir s p t).2 pidx).children)
        (fun e => e.1 == (split_path p).2) = none ∧
      lookupIdx (fused_rmdir s p t).2 ((slot s ridx).ino) = none ∧
      path_to_inode (fused_rmdir s p t).2 p = none) := by
  refine ⟨?_, ?_, ?_, ?_, ?_⟩
  · intro hp
    subst hp
    simp [fused_rmdir]
  · intro hp hres
    have hp' : (p == ['/']) = false := beq_eq_false_iff_ne.mpr hp
    simp [fused_rmdir, hp', hres]
  · intro ridx hp hres hfile
    have hp' : (p == ['/']) = false := beq_eq_false_iff_ne.mpr hp
    simp [fused_rmdir, hp', hres, hfile]
  · intro ridx hp hres hdir hch
    have hp' : (p == ['/']) = false := beq_eq_false_iff_ne.mpr hp
    have hlp : 0 < (slot s ridx).children.length := List.length_pos.mpr hch
    simp [fused_rmdir, hp', hres, hdir, hlp]
  · intro ridx pidx hres hpp hok
    by_cases hproot : (p == ['/']) = true
    · exfalso
      simp only [fused_rmdir, hproot, if_true] at hok
      simp at hok
    · have hp' : (p == ['/']) = false := by
        simp only [Bool.not_eq_true] at hproot
        exact hproot
      simp only [fused_rmdir, hp', Bool.false_eq_true, if_false, hres] at hok
      by_cases hd : S_ISDIR ((slot s ridx).mode) = true
      · rw [hd] at hok
        simp only [Bool.not_true, Bool.false_eq_true, if_false] at hok
        by_cases hch : (slot s ridx).children.length > 0
        · exfalso
          rw [if_pos hch] at hok
          simp at hok
        · rw [if_neg hch] at hok
          have hc0 : (slot s ridx).children = [] :=
            List.eq_nil_of_length_eq_zero (Nat.eq_zero_of_not_pos hch)
          rw [hpp] at hok
          simp only at hok
          cases hfe : findEntry ((slot s pidx).children)
              (fun e => e.1 == (split_path p).2) with
          | none =>
            exfalso
            rw [hfe] at hok
            simp at hok
          | some e =>
            have hrlen := resolve_lt hres
            have hplen := resolve_lt hpp
            have hprne : pidx ≠ ridx := by
              intro hc
              have hee := (findEntry_mem hfe).1
              rw [hc, hc0] at hee
              simp at hee
            have hr1 : ∃ r0, lookupIdx s 1 = some r0 ∧
                resolveFrom s r0 (tokenize p) = some ridx := by
              simp only [path_to_inode, hp', Bool.false_eq_true,
                if_false] at hres
              cases hl1 : lookupIdx s 1 with
              | none => rw [hl1] at hres; simp at hres
              | some r0 =>
                rw [hl1] at hres
                exact ⟨r0, rfl, hres⟩
            obtain ⟨r0, hl1, hwalk⟩ := hr1
            have hinoR0 : (slot s ridx).ino ≠ 0 := by
              rcases resolveFrom_some hwalk with ⟨htk, hrr⟩ |
                  ⟨nd, hmem, e2, hemem, hfi⟩
              · rw [hrr]
                have hsl : (slot s r0).ino = 1 := (findIno_some hl1).2
                rw [hsl]
                exact Nat.one_ne_zero
              · have hsl : (slot s ridx).ino = e2.2 := (findIno_some hfi).2
                rw [hsl]
                exact hW1 nd hmem e2 hemem
            have hrun : fused_rmdir s p t = (.ok (),
                ⟨(s.inodes.set pidx ({ slot s pidx with
                    children := removeEntry (slot s pidx).children
                      (fun e => e.1 == (split_path p).2),
                    mtime := t, ctime := t })).set ridx zeroInode,
                  s.store⟩) := by
              simp only [fused_rmdir, hp', Bool.false_eq_true, if_false,
                hres, hd, Bool.not_true, if_neg hch, hpp, hfe]
            have hpostlen : ((s.inodes.set pidx ({ slot s pidx with
                children := removeEntry (slot s pidx).children
                  (fun e => e.1 == (split_path p).2),
                mtime := t, ctime := t })).set ridx zeroInode).length
                = s.inodes.length := by
              simp [List.length_set]
            have hnone : ∀ j, j < ((s.inodes.set pidx ({ slot s pidx with
                children := removeEntry (slot s pidx).children
                  (fun e => e.1 == (split_path p).2),
                mtime := t, ctime := t })).set ridx zeroInode).length →
                (((s.inodes.set pidx ({ slot s pidx with
                  children := removeEntry (slot s pidx).children
                    (fun e => e.1 == (split_path p).2),
                  mtime := t, ctime := t })).set ridx zeroInode).getD j
                    zeroInode).ino ≠ (slot s ridx).ino := by
              intro j hj
              rw [hpostlen] at hj
              rw [getD_set_full]
              by_cases hjr : j = ridx
              · rw [if_pos ⟨hjr, by rw [List.length_set]; exact hrlen⟩]
                intro hc
                exact hinoR0 hc.symm
              · rw [if_neg (fun hc => hjr hc.1)]
                rw [getD_set_full]
                by_cases hjp : j = pidx
                · rw [if_pos ⟨hjp, hplen⟩]
                  intro hc
                  have hc' : (slot s pidx).ino = (slot s ridx).ino := hc
                  have := hW4 pidx ridx hplen hrlen hc' (by
                    rw [hc']
                    exact hinoR0)
                  exact hprne this
                · rw [if_neg (fun hc => hjp hc.1)]
                  intro hc
                  have := hW4 j ridx hj hrlen hc (by
                    rw [show (slot s j).ino = (slot s ridx).ino from hc]
                    exact hinoR0)
                  exact hjr this
            have hlkR : lookupIdx ((⟨(s.inodes.set pidx ({ slot s pidx with
                children := removeEntry (slot s pidx).children
                  (fun e => e.1 == (split_path p).2),
                mtime := t, ctime := t })).set ridx zeroInode,
                s.store⟩ : State)) ((slot s ridx).ino) = none :=
              findIno_none_of_getD hnone
            have hlk : ∀ k, k ≠ 0 → k ≠ (slot s ridx).ino →
                lookupIdx ((⟨(s.inodes.set pidx ({ slot s pidx with
                  children := removeEntry (slot s pidx).children
                    (fun e => e.1 == (split_path p).2),
                  mtime := t, ctime := t })).set ridx zeroInode,
                  s.store⟩ : State)) k = lookupIdx s k := by
              intro k hk0 hkR
              refine findIno_iff_congr (by rw [hpostlen]) k ?_
              intro i hi
              rw [hpostlen] at hi
              rw [getD_set_full]
              by_cases hir : i = ridx
              · rw [if_pos ⟨hir, by rw [List.length_set]; exact hrlen⟩]
                rw [hir]
                constructor
                · intro hc
                  exact absurd hc.symm hk0
                · intro hc
                  exact absurd hc (fun hcc => hkR hcc.symm)
              · rw [if_neg (fun hc => hir hc.1)]
                rw [getD_set_full]
                by_cases hip : i = pidx
                · rw [if_pos ⟨hip, hplen⟩, hip]
                  exact Iff.rfl
                · rw [if_neg (fun hc => hip hc.1)]
            refine ⟨hc0, ?_, ?_, ?_⟩
            · rw [hrun]
              simp only [slot]
              rw [getD_set_full, if_neg (by
                intro hc
                exact hprne hc.1)]
              rw [getD_set_full, if_pos ⟨rfl, hplen⟩]
              have hnodup : ((slot s pidx).children.map Prod.fst).Nodup := by
                rcases getD_mem_or_zero s.inodes pidx with hm | hz
                · exact hW5 _ hm
                · rw [show slot s pidx = zeroInode from hz]
                  simp [zeroInode]
              exact findEntry_removeEntry_name hnodup
            · rw [hrun]
              exact hlkR
            · rw [hrun]
              cases hpostres : path_to_inode (⟨(s.inodes.set pidx
                  ({ slot s pidx with
                    children := removeEntry (slot s pidx).children
                      (fun e => e.1 == (split_path p).2),
                    mtime := t, ctime := t })).set ridx zeroInode,
                  s.store⟩ : State) p with
              | none => rfl
              | some j =>
                exfalso
                simp only [path_to_inode, hp', Bool.false_eq_true,
                  if_false] at hpostres
                by_cases hR1 : (slot s ridx).ino = 1
                · rw [← hR1] at hpostres
                  rw [hlkR] at hpostres
                  simp at hpostres
                · rw [hlk 1 Nat.one_ne_zero (fun hc => hR1 hc.symm)]
                    at hpostres
                  rw [hl1] at hpostres
                  simp only at hpostres
                  have hr0ne : r0 ≠ ridx := by
                    intro hc
                    have := (findIno_some hl1).2
                    rw [hc] at this
                    exact hR1 this
                  obtain ⟨hpre, hjne⟩ := resolve_sim _ rfl hplen hrlen
                    hprne hW1 hW5 hlkR hlk (tokenize p) r0 j hr0ne hpostres
                  rw [hwalk] at hpre
                  injection hpre with hpre
                  exact hjne hpre.symm
      · exfalso
        rw [Bool.not_eq_true] at hd
        rw [hd] at hok
        simp at hok

/-- witness for `rmdir_contract` on the concrete tree `/d/e`: the
root is busy, `/d` is not empty, and removing `/d/e` succeeds and makes
it unresolvable. -/
theorem rmdir_contract_witness :
    fused_rmdir W.stD "/".toList 9 = (.error .EBUSY, W.stD) ∧
    fused_rmdir W.stD "/d".toList 9 = (.error .ENOTEMPTY, W.stD) ∧
    (slot W.stD 2).children = [] ∧
    path_to_inode (fused_rmdir W.stD "/d/e".toList 9).2 "/d/e".toList
      = none := by
  have hW1 : ∀ nd ∈ W.stD.inodes, ∀ e ∈ nd.children, e.2 ≠ 0 := by decide
  have hW5 : ∀ nd ∈ W.stD.inodes, (nd.children.map Prod.fst).Nodup := by
    decide
  have hW4 : ∀ i j, i < W.stD.inodes.length → j < W.stD.inodes.length →
      (slot W.stD i).ino = (slot W.stD j).ino → (slot W.stD i).ino ≠ 0 →
      i = j := by
    intro i j hi hj hino hz
    have hlen : W.stD.inodes.length = 3 := by decide
    rw [hlen] at hi hj
    interval_cases i <;> interval_cases j <;>
      first
        | rfl
        | (exfalso; revert hino; decide)
  have he := (rmdir_contract W.stD "/d/e".toList 9 hW1 hW5 hW4).2.2.2.2
    2 1 (by decide) (by decide) (by decide)
  refine ⟨?_, ?_, he.1, he.2.2.2⟩
  · exact (rmdir_contract W.stD "/".toList 9 hW1 hW5 hW4).1 (by decide)
  · exact (rmdir_contract W.stD "/d".toList 9 hW1 hW5 hW4).2.2.2.1
      1 (by decide) (by decide) (by decide) (by decide)

end Fused
